import Mathlib

/-!
Shallow embedding of the document content model and its derived-view pipeline of the
dhaamma_pages_web repository, together with proofs settling the frozen claims about it.

Embedded code:
* the Tiptap-JSON → HTML converter `convertNodeToHtml` / `tiptapToHtml`
  (src/unnamed/part_001);
* the image-reference extractor `extractImagePaths` and the content string
  encode/decode performed by `updatePage` / `getPage` (src/client/src/lib/firebase.ts);
* the orphan-image sweep `trackImagesAndCleanup` and `extractStoragePathFromUrl`
  (src/client/src/hooks/useEditor.tsx);
* the preview/read-time derivation `getPreviewText` / `calculateReadTime`
  (src/client/src/components/PageCard.tsx).

Modelling conventions: JavaScript strings are modelled as Lean `String` (sequences of
Unicode scalars; the sources only ever index or slice at positions where UTF-16 vs
scalar counting agrees for the properties proved), JS arrays as `List`, JS `Set`
iteration order as first-occurrence deduplicated lists, absent (`undefined`) fields as
`Option.none`, and functions that the source guards with try/catch as total functions
into `Option` or with explicit fallback results.
-/

/-- JS `haystack.startsWith(needle)` on character lists. -/
def startsWithL : List Char → List Char → Bool
  | _, [] => true
  | [], _ :: _ => false
  | a :: as, b :: bs => a = b && startsWithL as bs

/-- JS `haystack.includes(needle)` on character lists: some suffix starts with the
pattern (the empty pattern is contained in every string). -/
def containsL : List Char → List Char → Bool
  | [], pat => pat.isEmpty
  | c :: t, pat => startsWithL (c :: t) pat || containsL t pat

/-- JS `s.startsWith(pat)`. -/
def strStartsWith (s pat : String) : Bool := startsWithL s.data pat.data

/-- JS `s.includes(pat)`. -/
def strContains (s pat : String) : Bool := containsL s.data pat.data

/-- The node attributes the embedded code reads: `attrs.level`, `attrs.textAlign`,
`attrs.checked`, `attrs.src`, `attrs.alt` and `attrs['data-temp']` (the
pending-upload placeholder flag). A `none` models an absent property. -/
structure Attrs where
  level : Option Nat
  textAlign : Option String
  checked : Option Bool
  src : Option String
  alt : Option String
  dataTemp : Option Bool
deriving DecidableEq

/-- All-absent attributes (a node object carrying no `attrs`). -/
def emptyAttrs : Attrs := ⟨none, none, none, none, none, none⟩

/-- The Content Tree: a Tiptap JSON node with its `type`, optional `text` payload,
`marks` (their `type` strings, in list order), `attrs` and ordered `content`
children. -/
inductive TNode : Type where
  | node (ty : String) (text : Option String) (marks : List String) (attrs : Attrs)
      (content : List TNode)

/-- The node's `type` field. -/
def TNode.ty : TNode → String
  | .node ty _ _ _ _ => ty

/-- The node's `text` field. -/
def TNode.text : TNode → Option String
  | .node _ tx _ _ _ => tx

/-- The node's `marks` field. -/
def TNode.marks : TNode → List String
  | .node _ _ ms _ _ => ms

/-- The node's `attrs` field. -/
def TNode.attrs : TNode → Attrs
  | .node _ _ _ a _ => a

/-- The node's `content` (children) field. -/
def TNode.content : TNode → List TNode
  | .node _ _ _ _ c => c

/-- Structural induction over the nested inductive `TNode`, with the induction
hypothesis available for every child. -/
theorem tnodeInduction {P : TNode → Prop}
    (h : ∀ ty tx ms a c, (∀ n ∈ c, P n) → P (.node ty tx ms a c)) : ∀ t, P t := by
  have key : ∀ k t, sizeOf t ≤ k → P t := by
    intro k
    induction k with
    | zero =>
      intro t ht
      cases t with
      | node ty tx ms a c => simp at ht
    | succ k ih =>
      intro t ht
      cases t with
      | node ty tx ms a c =>
        apply h
        intro n hn
        apply ih
        have h1 : sizeOf n < sizeOf c := List.sizeOf_lt_of_mem hn
        simp at ht
        omega
  intro t
  exact key (sizeOf t) t le_rfl

/-! ## HTML renderer (src/unnamed/part_001, `convertNodeToHtml`, lines 14-102) -/

/-- One iteration of the `node.marks.forEach` loop (part_001 lines 21-26): the mark
named by `mark` wraps the text accumulated so far. -/
def applyMark (text : String) (mark : String) : String :=
  if mark = "bold" then "<strong>" ++ text ++ "</strong>"
  else if mark = "italic" then "<em>" ++ text ++ "</em>"
  else if mark = "underline" then "<u>" ++ text ++ "</u>"
  else if mark = "strike" then "<s>" ++ text ++ "</s>"
  else text

/-- `node.attrs?.level || 1` (part_001 line 41): absent or `0` (falsy) becomes 1. -/
def headingLevel (a : Attrs) : Nat :=
  match a.level with
  | some l => if l = 0 then 1 else l
  | none => 1

/-- The `style="text-align: ..."` attribute pushed when `node.attrs?.textAlign` is
truthy (part_001 lines 73-75); the empty string is falsy in JS. -/
def styleAttrList (a : Attrs) : List String :=
  match a.textAlign with
  | some v => if v = "" then [] else ["style=\"text-align: " ++ v ++ "\""]
  | none => []

/-- The tags after which part_001 lines 97-99 append a newline. -/
def blockTags : List String :=
  ["p", "h1", "h2", "h3", "h4", "h5", "h6", "ul", "ol", "li", "hr", "div"]

mutual

/-- Model of `convertNodeToHtml` (part_001 lines 14-102). Text nodes return their
text wrapped by the marks applied in list order (each mark wrapping the result so
far); `horizontalRule`, `hardBreak` and `doc` return early; every other type picks a
tag (default `div`), pushes its class and text-align attributes, prefixes the
checkbox input for `taskItem`, wraps the concatenated children, and appends a newline
after the block-level tags. -/
def convertNodeToHtml : TNode → String
  | .node ty tx marks attrs content =>
    if ty = "text" then
      marks.foldl applyMark (tx.getD "")
    else if ty = "horizontalRule" then "<hr />"
    else if ty = "hardBreak" then "<br />"
    else if ty = "doc" then convertListToHtml content
    else
      let tagCls : String × List String :=
        if ty = "paragraph" then ("p", [])
        else if ty = "heading" then ("h" ++ toString (headingLevel attrs), [])
        else if ty = "bulletList" then ("ul", [])
        else if ty = "orderedList" then ("ol", [])
        else if ty = "listItem" then ("li", [])
        else if ty = "taskList" then ("ul", ["class=\"task-list\""])
        else if ty = "taskItem" then
          ("li",
            ["class=\"task-item " ++ (if attrs.checked = some true then "checked" else "")
              ++ "\""])
        else ("div", [])
      let tag := tagCls.1
      let atts := tagCls.2 ++ styleAttrList attrs
      let pre : String :=
        if ty = "taskItem" then
          "<input type=\"checkbox\" " ++ (if attrs.checked = some true then "checked" else "")
            ++ " disabled /> "
        else ""
      let opening :=
        "<" ++ tag ++ (if atts.isEmpty then "" else " " ++ String.intercalate " " atts) ++ ">"
      let nl := if tag ∈ blockTags then "\n" else ""
      pre ++ opening ++ convertListToHtml content ++ "</" ++ tag ++ ">" ++ nl

/-- `node.content.forEach(child => html += convertNodeToHtml(child))`. -/
def convertListToHtml : List TNode → String
  | [] => ""
  | n :: ns => convertNodeToHtml n ++ convertListToHtml ns

end

mutual

/-- A node together with all its descendants, in depth-first (pre-)order. -/
def subnodes : TNode → List TNode
  | .node ty tx ms a c => .node ty tx ms a c :: subnodesList c

/-- All nodes of a forest, in depth-first order. -/
def subnodesList : List TNode → List TNode
  | [] => []
  | n :: ns => subnodes n ++ subnodesList ns

end

/-! ## URL parsing and percent-decoding used by the image-path extractors -/

/-- Value of a hexadecimal digit. -/
def hexVal (c : Char) : Option Nat :=
  let n := c.toNat
  if 48 ≤ n ∧ n ≤ 57 then some (n - 48)
  else if 97 ≤ n ∧ n ≤ 102 then some (n - 87)
  else if 65 ≤ n ∧ n ≤ 70 then some (n - 55)
  else none

/-- Value of a two-hex-digit pair (one percent-encoded byte). -/
def hexPairVal (a b : Char) : Option Nat :=
  match hexVal a, hexVal b with
  | some x, some y => some (x * 16 + y)
  | _, _ => none

/-- Is `n` a UTF-8 continuation byte? -/
def isUtf8Cont (n : Nat) : Bool := 0x80 ≤ n && n ≤ 0xBF

/-- Model of JS `decodeURIComponent`: `%XX` byte sequences are decoded as strict
UTF-8 (with the standard overlong/surrogate exclusions) into scalars, other
characters pass through unchanged; `none` models the thrown `URIError` on a
malformed escape or invalid byte sequence. (Lone surrogates, which a JS string could
represent, have no `Char` counterpart and are treated as failures.) -/
def pctDecode : List Char → Option (List Char)
  | [] => some []
  | '%' :: a :: b :: rest =>
    match hexPairVal a b with
    | none => none
    | some n =>
      if n < 0x80 then
        match pctDecode rest with
        | some tail => some (Char.ofNat n :: tail)
        | none => none
      else if 0xC2 ≤ n && n ≤ 0xDF then
        match rest with
        | '%' :: c :: d :: rest2 =>
          match hexPairVal c d with
          | some m =>
            if isUtf8Cont m then
              match pctDecode rest2 with
              | some tail => some (Char.ofNat ((n - 0xC0) * 0x40 + (m - 0x80)) :: tail)
              | none => none
            else none
          | none => none
        | _ => none
      else if 0xE0 ≤ n && n ≤ 0xEF then
        match rest with
        | '%' :: c :: d :: '%' :: e :: f :: rest2 =>
          match hexPairVal c d, hexPairVal e f with
          | some m1, some m2 =>
            if (if n = 0xE0 then 0xA0 ≤ m1 && m1 ≤ 0xBF
                else if n = 0xED then 0x80 ≤ m1 && m1 ≤ 0x9F
                else isUtf8Cont m1) && isUtf8Cont m2 then
              match pctDecode rest2 with
              | some tail =>
                some (Char.ofNat ((n - 0xE0) * 0x1000 + (m1 - 0x80) * 0x40 + (m2 - 0x80)) :: tail)
              | none => none
            else none
          | _, _ => none
        | _ => none
      else if 0xF0 ≤ n && n ≤ 0xF4 then
        match rest with
        | '%' :: c :: d :: '%' :: e :: f :: '%' :: g :: h :: rest2 =>
          match hexPairVal c d, hexPairVal e f, hexPairVal g h with
          | some m1, some m2, some m3 =>
            if (if n = 0xF0 then 0x90 ≤ m1 && m1 ≤ 0xBF
                else if n = 0xF4 then 0x80 ≤ m1 && m1 ≤ 0x8F
                else isUtf8Cont m1) && isUtf8Cont m2 && isUtf8Cont m3 then
              match pctDecode rest2 with
              | some tail =>
                some (Char.ofNat ((n - 0xF0) * 0x40000 + (m1 - 0x80) * 0x1000
                  + (m2 - 0x80) * 0x40 + (m3 - 0x80)) :: tail)
              | none => none
            else none
          | _, _, _ => none
        | _ => none
      else none
  | '%' :: _ => none
  | c :: rest =>
    match pctDecode rest with
    | some tail => some (c :: tail)
    | none => none

/-- Split at the first occurrence of `pat`, returning the parts before and after it. -/
def splitFirstL : List Char → List Char → Option (List Char × List Char)
  | [], pat => if pat.isEmpty then some ([], []) else none
  | c :: t, pat =>
    if startsWithL (c :: t) pat then some ([], (c :: t).drop pat.length)
    else
      match splitFirstL t pat with
      | some (pre, post) => some (c :: pre, post)
      | none => none

/-- The input preprocessing of the WHATWG URL parser behind `new URL(...)`: ASCII tab
and newlines are removed, and C0-control-or-space characters are trimmed from both
ends. -/
def urlPreprocess (l : List Char) : List Char :=
  let l' := l.filter (fun c => c ≠ '\t' && c ≠ '\n' && c ≠ '\r')
  ((l'.dropWhile (fun c => c ≤ ' ')).reverse.dropWhile (fun c => c ≤ ' ')).reverse

/-- Is `c` allowed in a URL scheme? -/
def isSchemeChar (c : Char) : Bool :=
  (97 ≤ c.toNat && c.toNat ≤ 122) || (65 ≤ c.toNat && c.toNat ≤ 90)
    || (48 ≤ c.toNat && c.toNat ≤ 57)
    || c = '+' || c = '-' || c = '.'

/-- Is `c` an ASCII letter? -/
def isAsciiAlpha (c : Char) : Bool :=
  (97 ≤ c.toNat && c.toNat ≤ 122) || (65 ≤ c.toNat && c.toNat ≤ 90)

/-- Model of `new URL(url).pathname` for the absolute `scheme://host/...` URLs the
sources feed it: the part after the host up to the query or fragment (`"/"` when the
host is immediately followed by the query, fragment or end). `none` models the URL
constructor throwing (no `://`, bad scheme, empty host). -/
def urlPathname (url : String) : Option String :=
  let l := urlPreprocess url.data
  match splitFirstL l "://".data with
  | none => none
  | some (scheme, rest) =>
    if scheme.isEmpty || !isAsciiAlpha (scheme.headD 'a') || !scheme.all isSchemeChar then
      none
    else
      let host := rest.takeWhile (fun c => c ≠ '/' && c ≠ '?' && c ≠ '#')
      let tail := rest.dropWhile (fun c => c ≠ '/' && c ≠ '?' && c ≠ '#')
      if host.isEmpty then none
      else
        let path := tail.takeWhile (fun c => c ≠ '?' && c ≠ '#')
        some (String.mk (if path.isEmpty then ['/'] else path))

/-- Model of the `pathname.match` against the `/v0/b/{bucket}/o/{path}` regular
expression of firebase.ts line 244 (slash-v0-slash-b, a nonempty bucket segment
without slashes, slash-o-slash, then a nonempty query-free capture),
returning the capture group of the leftmost match: after an occurrence of `/v0/b/`
there must be a nonempty run without `/`, then `/o/`, then a nonempty `?`-free
capture; on failure at one start position the scan continues at the next. -/
def matchV0 : List Char → Option (List Char)
  | [] => none
  | c :: t =>
    if startsWithL (c :: t) "/v0/b/".data then
      let after := (c :: t).drop 6
      let seg := after.takeWhile (fun ch => ch ≠ '/')
      let rest := after.dropWhile (fun ch => ch ≠ '/')
      if !seg.isEmpty && startsWithL rest "/o/".data then
        let cap := (rest.drop 3).takeWhile (fun ch => ch ≠ '?')
        if cap.isEmpty then matchV0 t else some cap
      else matchV0 t
    else matchV0 t

/-- Model of `pathname.match(/\/o\/(.+?)(\?|$)/)` (useEditor.tsx line 27), returning
capture group 1 of the leftmost match: the shortest nonempty run after an occurrence
of `/o/` that ends right before a `?` or at the end of the string. -/
def matchODash : List Char → Option (List Char)
  | [] => none
  | c :: t =>
    if startsWithL (c :: t) "/o/".data then
      match (c :: t).drop 3 with
      | [] => matchODash t
      | d :: after => some (d :: after.takeWhile (fun ch => ch ≠ '?'))
    else matchODash t

/-! ## Reference extraction (firebase.ts, `extractImagePaths`, lines 231-277) -/

/-- The firebasestorage-URL branch of `extractImagePaths` (firebase.ts lines
240-251): parse the URL, match the `/v0/b/{bucket}/o/{path}` shape, percent-decode
the path; any failure is caught and yields no reference. -/
def firebasePathOf (src : String) : Option String :=
  match urlPathname src with
  | none => none
  | some pn =>
    match matchV0 pn.data with
    | none => none
    | some cap =>
      match pctDecode cap with
      | none => none
      | some dec => some (String.mk dec)

/-- Normalization of one image `src` by `extractImagePaths` (firebase.ts lines
238-261): firebasestorage URLs yield their decoded object path (or nothing on parse
failure), bare `users/…/images/…` paths and other `http…` strings are used verbatim,
anything else yields no reference. -/
def normalizeSrc (src : String) : Option String :=
  if strContains src "firebasestorage.googleapis.com" then firebasePathOf src
  else if strStartsWith src "users/" && strContains src "/images/" then some src
  else if strStartsWith src "http" then some src
  else none

/-- The path pushed by `traverse` (firebase.ts lines 237-262) for one node itself:
an `image` node with a string `src` contributes its normalization, if any. Note: the
check never consults `attrs['data-temp']` (the pending flag). -/
def imageRef (n : TNode) : List String :=
  if n.ty = "image" then
    match n.attrs.src with
    | some s => (normalizeSrc s).toList
    | none => []
  else []

mutual

/-- The paths pushed by one call of `traverse` (firebase.ts lines 236-267) on a node
and its descendants, in push order. -/
def collectPaths : TNode → List String
  | .node ty tx ms attrs content =>
    imageRef (.node ty tx ms attrs content) ++ collectPathsList content

/-- `node.content.forEach(traverse)`. -/
def collectPathsList : List TNode → List String
  | [] => []
  | n :: ns => collectPaths n ++ collectPathsList ns

end

/-- Helper for `dedupFirst`: drop elements already seen. -/
def dedupFirstAux : List String → List String → List String
  | _, [] => []
  | seen, a :: l => if a ∈ seen then dedupFirstAux seen l else a :: dedupFirstAux (a :: seen) l

/-- JS `Array.from(new Set(paths))`: keep the first occurrence of each element,
preserving order. -/
def dedupFirst (l : List String) : List String := dedupFirstAux [] l

/-- Model of `extractImagePaths` (firebase.ts lines 231-277): traverse the root's
children and deduplicate the collected paths. -/
def extractImagePaths (content : TNode) : List String :=
  dedupFirst (collectPathsList content.content)

/-! ## Orphan sweep (useEditor.tsx, `trackImagesAndCleanup`, lines 54-99) -/

/-- Model of `extractStoragePathFromUrl` (useEditor.tsx lines 23-35): for
firebase-looking URLs, the percent-decoded capture after `/o/` in the URL path;
`none` when the guard fails, the URL constructor throws, or the pattern does not
match. -/
def extractStoragePathFromUrl (url : String) : Option String :=
  if strContains url "firebasestorage.googleapis.com"
      || (strContains url "firebase" && strContains url "token=") then
    match urlPathname url with
    | none => none
    | some pn =>
      match matchODash pn.data with
      | none => none
      | some cap =>
        match pctDecode cap with
        | none => none
        | some dec => some (String.mk dec)
  else none

/-- The URL added by `extractImages` (useEditor.tsx lines 60-66) for one node
itself: an `image` node with a truthy `src` that contains
`firebasestorage.googleapis.com`, or contains both `firebase` and `token=`,
contributes its `src`. -/
def hookRef (n : TNode) : List String :=
  if n.ty = "image" then
    match n.attrs.src with
    | some s =>
      if s ≠ ""
          && (strContains s "firebasestorage.googleapis.com"
            || (strContains s "firebase" && strContains s "token=")) then
        [s]
      else []
    | none => []
  else []

mutual

/-- The URLs added by `extractImages` (useEditor.tsx lines 58-68) for a node and its
descendants, in insertion order (before `Set` deduplication). -/
def hookCollect : TNode → List String
  | .node ty tx ms attrs content =>
    hookRef (.node ty tx ms attrs content) ++ hookCollectList content

/-- `if (node.content) node.content.forEach(extractImages)`. -/
def hookCollectList : List TNode → List String
  | [] => []
  | n :: ns => hookCollect n ++ hookCollectList ns

end

/-- The `currentImages` set of one sweep tick: the collected URLs, deduplicated with
first-occurrence order (JS `Set`). -/
def hookRefs (t : TNode) : List String := dedupFirst (hookCollect t)

/-- Model of `deleteImage` (firebase.ts lines 218-228): an empty path issues no
request; otherwise one `deleteObject` request is issued and its outcome (`true` for
success) is recorded; a failure is caught and ignored. -/
def deleteImage (fails : String → Bool) (imagePath : String) : List (String × Bool) :=
  if imagePath = "" then [] else [(imagePath, !fails imagePath)]

/-- Result of one `trackImagesAndCleanup` tick: the `deleteObject` requests issued
(storage path and recorded outcome, in order) and the new `previousImages` baseline. -/
structure TickResult where
  submitted : List (String × Bool)
  baseline : List String

/-- Model of one `trackImagesAndCleanup` tick (useEditor.tsx lines 54-99) for a
signed-in user: collect the current firebase image URLs into a set, delete — for
every URL of the previous baseline that is no longer current — the extractable
storage path of every non-`blob:` URL (failures caught and ignored), then set the
baseline to the current set minus `blob:` URLs regardless of the delete outcomes
(`fails` says which storage paths' deletes fail). -/
def trackImagesAndCleanup (fails : String → Bool) (previousImages : List String)
    (currentContent : TNode) : TickResult :=
  let currentImages := hookRefs currentContent
  let deletedImages := previousImages.filter (fun url => url ∉ currentImages)
  let submitted := deletedImages.flatMap (fun url =>
    if strContains url "blob:" then []
    else
      match extractStoragePathFromUrl url with
      | some p => if p = "" then [] else deleteImage fails p
      | none => [])
  { submitted := submitted
    baseline := currentImages.filter (fun url => !strContains url "blob:") }

/-! ## Preview text and read time (src/client/src/components/PageCard.tsx) -/

mutual

/-- One callback application of `extractText`'s `nodes.map` (PageCard.tsx lines
24-30): a text node yields its text, any other node yields the extraction of its
children (the empty string when there are none). -/
def previewNode : TNode → String
  | .node ty tx _ _ c => if ty = "text" then tx.getD "" else previewList c

/-- `extractText(nodes)` (PageCard.tsx lines 23-32): the per-node strings joined by
single spaces. -/
def previewList : List TNode → String
  | [] => ""
  | [n] => previewNode n
  | n :: ns => previewNode n ++ " " ++ previewList ns

end

/-- Model of `getPreviewText` (PageCard.tsx lines 19-36): the extracted text of the
root's children, truncated to 150 characters with a trailing `...` marker when
longer. -/
def getPreviewText (content : TNode) : String :=
  let text := previewList content.content
  String.mk (text.data.take 150 ++ (if 150 < text.data.length then ['.', '.', '.'] else []))

/-- JS `text.split(' ')`: split at every single space, keeping empty pieces. -/
def splitSp : List Char → List (List Char)
  | [] => [[]]
  | c :: rest =>
    if c = ' ' then [] :: splitSp rest
    else
      match splitSp rest with
      | [] => [[c]]
      | p :: ps => (c :: p) :: ps

/-- `text.split(' ').length` for the truncated preview text (PageCard.tsx line 40). -/
def readTimeWords (content : TNode) : Nat :=
  (splitSp (getPreviewText content).data).length

/-- Model of `calculateReadTime` (PageCard.tsx lines 38-43): the ceiling of the
preview word count divided by 200, rendered as a `min read` label. -/
def calculateReadTime (content : TNode) : String :=
  toString ((readTimeWords content + 199) / 200) ++ " min read"

/-- The word count the spec's read-time sentence refers to, following its words: the
number of space-separated segments of the full (untruncated) extracted document
text. -/
def specWordCount (content : TNode) : Nat :=
  (splitSp (previewList content.content).data).length

/-- The read-time the spec describes, following its words: `ceiling(wordCount / 200)`
minutes over the full document word count, rendered with the same label. -/
def specReadTime (content : TNode) : String :=
  toString ((specWordCount content + 199) / 200) ++ " min read"

/-! ## JSON values, serialization and parsing (the `JSON.stringify` / `JSON.parse`
calls of firebase.ts lines 66 and 114) -/

/-- JSON values as handled by the content encode/decode path. Objects keep their
members in textual order; numbers keep their source lexeme (the application only ever
serializes natural numbers, e.g. heading levels). -/
inductive Json : Type where
  | null
  | bool (b : Bool)
  | num (raw : String)
  | str (s : String)
  | arr (xs : List Json)
  | obj (kvs : List (String × Json))

/-- Lowercase hex digit. -/
def hexDigitChar (n : Nat) : Char :=
  if n < 10 then Char.ofNat (48 + n) else Char.ofNat (87 + n)

/-- `JSON.stringify` escaping of one string character: quote, backslash and the
control shortcuts get two-character escapes, other control characters get `\u00XX`,
everything else passes through. -/
def escChar (c : Char) : List Char :=
  if c = '"' then ['\\', '"']
  else if c = '\\' then ['\\', '\\']
  else if c = Char.ofNat 8 then ['\\', 'b']
  else if c = Char.ofNat 9 then ['\\', 't']
  else if c = Char.ofNat 10 then ['\\', 'n']
  else if c = Char.ofNat 12 then ['\\', 'f']
  else if c = Char.ofNat 13 then ['\\', 'r']
  else if c.toNat < 32 then
    '\\' :: 'u' :: '0' :: '0' :: hexDigitChar (c.toNat / 16) :: [hexDigitChar (c.toNat % 16)]
  else [c]

/-- Escape every character of a string body. -/
def escapeChars : List Char → List Char
  | [] => []
  | c :: cs => escChar c ++ escapeChars cs

/-- `JSON.stringify` of a string. -/
def serStr (s : String) : List Char := '"' :: (escapeChars s.data ++ ['"'])

/-- Fueled digit expansion (the fuel only bounds recursion depth; `natChars` always
supplies enough). -/
def natCharsAux : Nat → Nat → List Char
  | 0, _ => []
  | fuel + 1, n =>
    if n < 10 then [Char.ofNat (48 + n)]
    else natCharsAux fuel (n / 10) ++ [Char.ofNat (48 + n % 10)]

/-- Decimal digits of a natural number, most significant first. -/
def natChars (n : Nat) : List Char := natCharsAux (n + 1) n

mutual

/-- `JSON.stringify` (no indentation): the canonical compact serialization. -/
def serJson : Json → List Char
  | .null => 'n' :: ['u', 'l', 'l']
  | .bool true => 't' :: ['r', 'u', 'e']
  | .bool false => 'f' :: ['a', 'l', 's', 'e']
  | .num raw => raw.data
  | .str s => serStr s
  | .arr [] => ['[', ']']
  | .arr (x :: xs) => '[' :: ((serJson x ++ serItems xs) ++ [']'])
  | .obj [] => ['\x7b', '\x7d']
  | .obj (kv :: kvs) => '\x7b' :: ((serMember kv ++ serMembers kvs) ++ ['\x7d'])

/-- Remaining array items, each preceded by a comma. -/
def serItems : List Json → List Char
  | [] => []
  | y :: ys => ',' :: (serJson y ++ serItems ys)

/-- One object member: serialized key, colon, serialized value. -/
def serMember : String × Json → List Char
  | (k, v) => serStr k ++ (':' :: serJson v)

/-- Remaining object members, each preceded by a comma. -/
def serMembers : List (String × Json) → List Char
  | [] => []
  | kv :: kvs => ',' :: (serMember kv ++ serMembers kvs)

end

/-- JSON whitespace. -/
def isJsonWs (c : Char) : Bool := c = ' ' || c = '\t' || c = '\n' || c = '\r'

/-- Skip JSON whitespace. -/
def skipWs (l : List Char) : List Char := l.dropWhile isJsonWs

/-- Decimal digit character. -/
def isDigitChar (c : Char) : Bool := '0' ≤ c && c ≤ '9'

/-- Characters that can occur in a JSON number lexeme. -/
def isNumChar (c : Char) : Bool :=
  isDigitChar c || c = '-' || c = '+' || c = '.' || c = 'e' || c = 'E'

/-- Require at least one digit, then return the input after the digit run. -/
def digitsThen (l : List Char) : Option (List Char) :=
  match l with
  | c :: rest => if isDigitChar c then some (rest.dropWhile isDigitChar) else none
  | [] => none

/-- Validate the optional fraction and exponent of a JSON number lexeme, requiring
the lexeme to end afterwards. -/
def validNumTail (l : List Char) : Bool :=
  let afterFrac : Option (List Char) :=
    match l with
    | c :: rest => if c = '.' then digitsThen rest else some (c :: rest)
    | [] => some []
  match afterFrac with
  | none => false
  | some l2 =>
    match l2 with
    | [] => true
    | e :: rest =>
      if e = 'e' || e = 'E' then
        let rest2 :=
          match rest with
          | c :: r => if c = '+' || c = '-' then r else c :: r
          | [] => []
        match digitsThen rest2 with
        | some [] => true
        | _ => false
      else false

/-- Validate a JSON number lexeme (optional minus, integer part without a leading
zero, optional fraction, optional exponent). -/
def validNum (l : List Char) : Bool :=
  let l1 :=
    match l with
    | c :: r => if c = '-' then r else c :: r
    | [] => []
  match l1 with
  | c :: rest =>
    if c = '0' then validNumTail rest
    else if isDigitChar c then validNumTail (rest.dropWhile isDigitChar)
    else false
  | [] => false

/-- Parse a number token: the maximal run of number characters, validated against the
JSON number grammar, kept as its lexeme. -/
def parseNum (l : List Char) : Option (Json × List Char) :=
  let tok := l.takeWhile isNumChar
  if validNum tok then some (.num (String.mk tok), l.dropWhile isNumChar) else none

/-- The single-character string escapes of JSON. -/
def escSimple (e : Char) : Option Char :=
  if e = '"' then some '"'
  else if e = '\\' then some '\\'
  else if e = '/' then some '/'
  else if e = 'b' then some (Char.ofNat 8)
  else if e = 'f' then some (Char.ofNat 12)
  else if e = 'n' then some (Char.ofNat 10)
  else if e = 'r' then some (Char.ofNat 13)
  else if e = 't' then some (Char.ofNat 9)
  else none

/-- Prepend a decoded character to a string-body parse result. -/
def consStr (c : Char) : Option (List Char × List Char) → Option (List Char × List Char)
  | some (s, r) => some (c :: s, r)
  | none => none

/-- Value of four hex digits. -/
def hex4 (a b c d : Char) : Option Nat :=
  match hexVal a, hexVal b, hexVal c, hexVal d with
  | some w, some x, some y, some z => some (((w * 16 + x) * 16 + y) * 16 + z)
  | _, _, _, _ => none

mutual

/-- Parse a JSON string body (after the opening quote) up to the closing quote:
escapes are decoded, `\uXXXX` surrogate pairs are combined, raw control characters
are rejected. (A lone surrogate escape, which JS would keep as an unpaired UTF-16
unit, has no `Char` counterpart and is treated as a failure.) -/
def parseStrChars : List Char → Option (List Char × List Char)
  | [] => none
  | c :: rest =>
    if c = '"' then some ([], rest)
    else if c = '\\' then parseEsc rest
    else if c.toNat < 32 then none
    else consStr c (parseStrChars rest)

/-- Parse one escape sequence (after the backslash). -/
def parseEsc : List Char → Option (List Char × List Char)
  | [] => none
  | e :: rest2 =>
    if e = 'u' then parseUHex rest2
    else
      match escSimple e with
      | some c2 => consStr c2 (parseStrChars rest2)
      | none => none

/-- Parse the four hex digits of a `\uXXXX` escape (and a following low surrogate
when they denote a high surrogate). -/
def parseUHex : List Char → Option (List Char × List Char)
  | a :: b :: c2 :: d :: rest3 =>
    (match hex4 a b c2 d with
    | none => none
    | some n =>
      if n < 0xD800 || 0xE000 ≤ n then consStr (Char.ofNat n) (parseStrChars rest3)
      else if n ≤ 0xDBFF then parseLowSurrogate n rest3
      else none)
  | _ => none

/-- Parse the `\uXXXX` low-surrogate escape completing a high surrogate `n`. -/
def parseLowSurrogate (n : Nat) : List Char → Option (List Char × List Char)
  | b1 :: u1 :: a2 :: b2 :: c3 :: d2 :: rest4 =>
    (if b1 = '\\' && u1 = 'u' then
      match hex4 a2 b2 c3 d2 with
      | none => none
      | some m =>
        if 0xDC00 ≤ m && m ≤ 0xDFFF then
          consStr (Char.ofNat (0x10000 + (n - 0xD800) * 0x400 + (m - 0xDC00)))
            (parseStrChars rest4)
        else none
    else none)
  | _ => none

end

/-- If the input starts with the expected character, the input after it. -/
def stripHead (c : Char) : List Char → Option (List Char)
  | [] => none
  | x :: r => if x = c then some r else none

mutual

/-- Recursive-descent JSON value parser, fueled (the fuel only bounds the recursion
depth; `jsonParse` supplies more fuel than any input can consume). -/
def parseValue : Nat → List Char → Option (Json × List Char)
  | 0, _ => none
  | fuel + 1, input =>
    match skipWs input with
    | [] => none
    | c :: rest =>
      if c = '"' then
        match parseStrChars rest with
        | some (s, r) => some (.str (String.mk s), r)
        | none => none
      else if c = '[' then
        match stripHead ']' (skipWs rest) with
        | some r => some (.arr [], r)
        | none =>
          match parseItems fuel (skipWs rest) with
          | some (xs, r) => some (.arr xs, r)
          | none => none
      else if c = '\x7b' then
        match stripHead '\x7d' (skipWs rest) with
        | some r => some (.obj [], r)
        | none =>
          match parseMembers fuel (skipWs rest) with
          | some (kvs, r) => some (.obj kvs, r)
          | none => none
      else if startsWithL (c :: rest) ['n', 'u', 'l', 'l'] then some (.null, (c :: rest).drop 4)
      else if startsWithL (c :: rest) ['t', 'r', 'u', 'e'] then
        some (.bool true, (c :: rest).drop 4)
      else if startsWithL (c :: rest) ['f', 'a', 'l', 's', 'e'] then
        some (.bool false, (c :: rest).drop 5)
      else parseNum (c :: rest)

/-- Parse the (nonempty) comma-separated items of an array, up to `]`. -/
def parseItems : Nat → List Char → Option (List Json × List Char)
  | 0, _ => none
  | fuel + 1, input =>
    match parseValue fuel input with
    | none => none
    | some (v, r) =>
      match stripHead ',' (skipWs r) with
      | some r2 =>
        match parseItems fuel r2 with
        | some (xs, r3) => some (v :: xs, r3)
        | none => none
      | none =>
        match stripHead ']' (skipWs r) with
        | some r2 => some ([v], r2)
        | none => none

/-- Parse the (nonempty) comma-separated members of an object, up to the closing
brace. -/
def parseMembers : Nat → List Char → Option (List (String × Json) × List Char)
  | 0, _ => none
  | fuel + 1, input =>
    match stripHead '"' (skipWs input) with
    | none => none
    | some r =>
      match parseStrChars r with
      | none => none
      | some (k, r1) =>
        match stripHead ':' (skipWs r1) with
        | none => none
        | some r2 =>
          match parseValue fuel r2 with
          | none => none
          | some (v, r3) =>
            match stripHead ',' (skipWs r3) with
            | some r4 =>
              match parseMembers fuel r4 with
              | some (kvs, r5) => some ((String.mk k, v) :: kvs, r5)
              | none => none
            | none =>
              match stripHead '\x7d' (skipWs r3) with
              | some r4 => some ([(String.mk k, v)], r4)
              | none => none

end

/-- Model of `JSON.parse` over the sublanguage the application exchanges (numbers
kept as integer/decimal lexemes): the whole input must be one value surrounded only
by whitespace; `none` models the thrown `SyntaxError`. -/
def jsonParse (l : List Char) : Option Json :=
  match parseValue (l.length + 1) l with
  | some (j, rest) => if skipWs rest = [] then some j else none
  | none => none

/-! ## Typed view of parsed content -/

/-- Digits to number, most significant first. -/
def digitsToNat (l : List Char) : Nat := l.foldl (fun acc c => acc * 10 + (c.toNat - 48)) 0

/-- Read a number lexeme back as a natural number (only plain digit runs; the
application only stores naturals). -/
def rawToNat (raw : String) : Option Nat :=
  if raw.data ≠ [] && raw.data.all isDigitChar then some (digitsToNat raw.data) else none

/-- Last-wins association lookup: JS member access on an object built by
`JSON.parse`, where a duplicated key keeps its last value. -/
def jsGet (k : String) : List (String × Json) → Option Json
  | [] => none
  | (k2, v) :: rest =>
    match jsGet k rest with
    | some v2 => some v2
    | none => if k2 = k then some v else none

/-- Member read as a string, `none` for absent or non-string. -/
def jsGetStr (k : String) (kvs : List (String × Json)) : Option String :=
  match jsGet k kvs with
  | some (.str s) => some s
  | _ => none

/-- Member read as a boolean. -/
def jsGetBool (k : String) (kvs : List (String × Json)) : Option Bool :=
  match jsGet k kvs with
  | some (.bool b) => some b
  | _ => none

/-- Member read as a natural number. -/
def jsGetNat (k : String) (kvs : List (String × Json)) : Option Nat :=
  match jsGet k kvs with
  | some (.num raw) => rawToNat raw
  | _ => none

/-- The `type` string of one mark object (non-conforming marks read as `""`, which
matches no mark name, as the dynamic comparisons would). -/
def markTypeOf (j : Json) : String :=
  match j with
  | .obj kvs => (jsGetStr "type" kvs).getD ""
  | _ => ""

/-- The mark list of a node object. -/
def jsGetMarks (kvs : List (String × Json)) : List String :=
  match jsGet "marks" kvs with
  | some (.arr xs) => xs.map markTypeOf
  | _ => []

/-- The attrs of a node object. -/
def jsGetAttrs (kvs : List (String × Json)) : Attrs :=
  match jsGet "attrs" kvs with
  | some (.obj avs) =>
    ⟨jsGetNat "level" avs, jsGetStr "textAlign" avs, jsGetBool "checked" avs,
      jsGetStr "src" avs, jsGetStr "alt" avs, jsGetBool "data-temp" avs⟩
  | _ => emptyAttrs

/-- Does the key occur? -/
def hasKey (k : String) : List (String × Json) → Bool
  | [] => false
  | (k2, _) :: rest => k2 = k || hasKey k rest

mutual

/-- The typed reading of a parsed JSON value as a Content Tree node: exactly the
fields the embedded code accesses dynamically (`type`, `text`, `marks`, `attrs`,
`content`), with absent or non-conforming fields reading as their absent/defaulted
values. A non-object value carries none of these properties. -/
def jsonToTNode : Json → TNode
  | .obj kvs =>
    .node ((jsGetStr "type" kvs).getD "") (jsGetStr "text" kvs) (jsGetMarks kvs)
      (jsGetAttrs kvs) (jsonChildrenOf kvs)
  | _ => .node "" none [] emptyAttrs []

/-- The children of a node object: the value of its last `content` member, when that
value is an array. -/
def jsonChildrenOf : List (String × Json) → List TNode
  | [] => []
  | (k, v) :: rest =>
    if k = "content" then
      if hasKey "content" rest then jsonChildrenOf rest else jsonArrNodes v
    else jsonChildrenOf rest

/-- The children named by a `content` value: the read elements when it is an array,
nothing otherwise. -/
def jsonArrNodes : Json → List TNode
  | .arr xs => jsonNodesOf xs
  | _ => []

/-- Read every element of a `content` array. -/
def jsonNodesOf : List Json → List TNode
  | [] => []
  | x :: xs => jsonToTNode x :: jsonNodesOf xs

end

/-- JSON view of one mark object. -/
def markToJson (m : String) : Json := .obj [("type", .str m)]

/-- A conditional object member: present exactly when the value is present. -/
def optSeg (key : String) : Option Json → List (String × Json)
  | some j => [(key, j)]
  | none => []

/-- The members of a node's `attrs` object, in a fixed key order; absent (`none`)
fields are omitted, matching a runtime node object that lacks them. -/
def attrsMembers (a : Attrs) : List (String × Json) :=
  optSeg "level" (a.level.map fun l => Json.num (String.mk (natChars l)))
  ++ (optSeg "textAlign" (a.textAlign.map Json.str)
  ++ (optSeg "checked" (a.checked.map Json.bool)
  ++ (optSeg "src" (a.src.map Json.str)
  ++ (optSeg "alt" (a.alt.map Json.str)
  ++ optSeg "data-temp" (a.dataTemp.map Json.bool)))))

mutual

/-- The JSON object a Content Tree node is at runtime (and hence what
`JSON.stringify` serializes on save): its `type`, then `text`, `marks`, `attrs` and
`content` when present (empty marks/children and all-absent attrs are absent
properties). -/
def nodeToJson : TNode → Json
  | .node ty tx ms a c =>
    .obj (("type", Json.str ty)
      :: (optSeg "text" (tx.map Json.str)
      ++ (optSeg "marks" (if ms.isEmpty then none else some (Json.arr (ms.map markToJson)))
      ++ (optSeg "attrs"
        (if (attrsMembers a).isEmpty then none else some (Json.obj (attrsMembers a)))
      ++ optSeg "content" (if c.isEmpty then none else some (Json.arr (nodesToJson c)))))))

/-- JSON views of a node list. -/
def nodesToJson : List TNode → List Json
  | [] => []
  | n :: ns => nodeToJson n :: nodesToJson ns

end

/-- The content encoding performed on save by `updatePage` (firebase.ts lines
64-68): an object content is `JSON.stringify`-ed before the write. -/
def encodePageContent (t : TNode) : String := String.mk (serJson (nodeToJson t))

/-- The content decoding performed on load by `getPage` (firebase.ts lines 110-121):
a string content is `JSON.parse`-d and the parsed object is the content tree (read
back into its typed view); `none` models the parse-failure fallback path. -/
def decodePageContent (s : String) : Option TNode :=
  match jsonParse s.data with
  | some j => some (jsonToTNode j)
  | none => none

/-! ## tiptapToHtml (src/unnamed/part_001, lines 104-131) -/

/-- The possible `content` arguments of `tiptapToHtml` (typed view of its `any`
parameter). -/
inductive TInput where
  | nullInput
  | undefinedInput
  | strInput (s : String)
  | nodeInput (t : TNode)
  | arrInput (ts : List TNode)

/-- JS falsiness of a parsed JSON value (the `!parsedContent` test): `null`, `false`,
a zero number and the empty string are falsy; objects and arrays (even empty) are
truthy. A number lexeme is zero when every digit before its exponent is `0`. -/
def jsonFalsy : Json → Bool
  | .null => true
  | .bool b => !b
  | .num raw =>
    (raw.data.takeWhile (fun c => c ≠ 'e' && c ≠ 'E')).all fun c => !isDigitChar c || c = '0'
  | .str s => s = ""
  | .arr _ => false
  | .obj _ => false

/-- Dispatch of a successfully parsed truthy value (part_001 lines 120-126): an
array is mapped over `convertNodeToHtml` and joined; every other value is rendered as
a node (the `type === 'doc' || content` test and the final fallback make the same
call on any non-array). -/
def renderParsed (j : Json) : String :=
  match j with
  | .arr xs => String.join (xs.map fun x => convertNodeToHtml (jsonToTNode x))
  | _ => convertNodeToHtml (jsonToTNode j)

/-- Model of `tiptapToHtml` (part_001 lines 104-131): strings are JSON-parsed with a
fixed error fallback, falsy content (including `null`/`undefined` input) yields the
no-content fallback, arrays are joined element renders, and any other value is
rendered as a node. Total by construction — every input yields a string. -/
def tiptapToHtml : TInput → String
  | .nullInput => "<p>No content to export</p>"
  | .undefinedInput => "<p>No content to export</p>"
  | .strInput s =>
    match jsonParse s.data with
    | none => "<p>Error: Invalid content format</p>"
    | some j => if jsonFalsy j then "<p>No content to export</p>" else renderParsed j
  | .nodeInput t => convertNodeToHtml t
  | .arrInput ts => String.join (ts.map convertNodeToHtml)

/-! ## Auxiliary notions for the round-trip proof -/

/-- Preference of the later of two lookup results (`jsGet` over appended member
lists). -/
def optOr (a b : Option Json) : Option Json :=
  match a with
  | some v => some v
  | none => b

mutual

/-- Well-formedness of the JSON values the encoder produces: every number lexeme is
the digit expansion of a natural number. -/
def WFj : Json → Prop
  | .null => True
  | .bool _ => True
  | .num raw => ∃ n, raw.data = natChars n
  | .str _ => True
  | .arr xs => WFitems xs
  | .obj kvs => WFmembers kvs

/-- All array items well-formed. -/
def WFitems : List Json → Prop
  | [] => True
  | x :: xs => WFj x ∧ WFitems xs

/-- All object member values well-formed. -/
def WFmembers : List (String × Json) → Prop
  | [] => True
  | kv :: kvs => WFj kv.2 ∧ WFmembers kvs

end

mutual

/-- Parser fuel sufficient for a value (used only in the parse-of-print proof). -/
def needJ : Json → Nat
  | .null => 1
  | .bool _ => 1
  | .num _ => 1
  | .str _ => 1
  | .arr xs => 1 + needItems xs
  | .obj kvs => 1 + needMembers kvs

/-- Fuel sufficient for the remaining array items. -/
def needItems : List Json → Nat
  | [] => 0
  | x :: xs => 1 + max (needJ x) (needItems xs)

/-- Fuel sufficient for the remaining object members. -/
def needMembers : List (String × Json) → Nat
  | [] => 0
  | kv :: kvs => 1 + max (needJ kv.2) (needMembers kvs)

end

/-- The next character (if any) cannot extend a number lexeme. -/
def headNumOk : List Char → Prop
  | [] => True
  | c :: _ => isNumChar c = false

/-! ## Concrete inputs used by counterexamples and witnesses -/

/-- A pending (placeholder-flagged) image node carrying a bare storage path. -/
def pendingImageNode : TNode :=
  .node "image" none []
    { emptyAttrs with src := some "users/u1/images/photo.png", dataTemp := some true } []

/-- A document whose only child is the pending image node. -/
def pendingDoc : TNode := .node "doc" none [] emptyAttrs [pendingImageNode]

/-- A baseline URL that looks like a firebasestorage URL but has no `/o/` object
path, so no storage path can be extracted from it. -/
def staleUrl : String := "https://firebasestorage.googleapis.com/nopath"

/-- The empty document. -/
def emptyDoc : TNode := .node "doc" none [] emptyAttrs []

/-- A paragraph containing one text node with the bold and italic marks, in that
order. -/
def boldItalicPara : TNode :=
  .node "paragraph" none [] emptyAttrs
    [.node "text" (some "hello") ["bold", "italic"] emptyAttrs []]

/-- A checked task item containing one text child. -/
def checkedTaskItem : TNode :=
  .node "taskItem" none [] { emptyAttrs with checked := some true }
    [.node "text" (some "Task") [] emptyAttrs []]

/-- An image node with a bare storage-path `src`. -/
def simpleImage : TNode :=
  .node "image" none [] { emptyAttrs with src := some "users/u1/images/a.png" } []

/-- A node of an unrecognized kind with one text child. -/
def mysteryNode : TNode :=
  .node "mystery" none [] emptyAttrs [.node "text" (some "x") [] emptyAttrs []]

/-- A small demonstration tree (used to instantiate universally quantified
theorems). -/
def demoTree : TNode :=
  .node "doc" none [] emptyAttrs
    [.node "paragraph" none [] emptyAttrs [.node "text" (some "demo") [] emptyAttrs []]]

/-- A document holding one text node of 201 single-letter words (401 characters). -/
def readTimeCexDoc : TNode :=
  .node "doc" none [] emptyAttrs
    [.node "paragraph" none [] emptyAttrs
      [.node "text" (some (String.mk ((List.replicate 200 ['a', ' ']).flatten ++ ['a'])))
        [] emptyAttrs []]]

/-! ## Helper lemmas -/

theorem dedupFirstAux_mem (l : List String) :
    ∀ seen x, x ∈ dedupFirstAux seen l ↔ x ∈ l ∧ x ∉ seen := by
  induction l with
  | nil => simp [dedupFirstAux]
  | cons a t ih =>
    intro seen x
    simp only [dedupFirstAux]
    by_cases ha : a ∈ seen
    · rw [if_pos ha, ih]
      constructor
      · rintro ⟨hx, hns⟩
        exact ⟨List.mem_cons_of_mem _ hx, hns⟩
      · rintro ⟨hx, hns⟩
        rcases List.mem_cons.1 hx with hx | hx
        · subst hx
          exact absurd ha hns
        · exact ⟨hx, hns⟩
    · rw [if_neg ha]
      by_cases hxa : x = a
      · subst hxa
        simp [ha]
      · simp only [List.mem_cons, hxa, false_or]
        rw [ih]
        simp [hxa]

theorem dedupFirstAux_nodup (l : List String) : ∀ seen, (dedupFirstAux seen l).Nodup := by
  induction l with
  | nil => intro seen; simp [dedupFirstAux]
  | cons a t ih =>
    intro seen
    simp only [dedupFirstAux]
    by_cases ha : a ∈ seen
    · rw [if_pos ha]; exact ih seen
    · rw [if_neg ha]
      refine List.nodup_cons.2 ⟨?_, ih _⟩
      intro hmem
      have h := (dedupFirstAux_mem t (a :: seen) a).1 hmem
      simp at h

theorem dedupFirst_mem (l : List String) (x : String) : x ∈ dedupFirst l ↔ x ∈ l := by
  rw [dedupFirst, dedupFirstAux_mem]
  simp

theorem dedupFirst_nodup (l : List String) : (dedupFirst l).Nodup :=
  dedupFirstAux_nodup l []

theorem splitSp_ne_nil (l : List Char) : splitSp l ≠ [] := by
  cases l with
  | nil => simp [splitSp]
  | cons c rest =>
    simp only [splitSp]
    split
    · simp
    · cases h : splitSp rest <;> simp

theorem splitSp_length_le (l : List Char) : (splitSp l).length ≤ l.length + 1 := by
  induction l with
  | nil => simp [splitSp]
  | cons c rest ih =>
    simp only [splitSp]
    split
    · simpa using Nat.succ_le_succ ih
    · cases h : splitSp rest with
      | nil => simp
      | cons p ps =>
        rw [h] at ih
        simpa using Nat.le_succ_of_le ih

theorem readTimeWords_pos (t : TNode) : 1 ≤ readTimeWords t :=
  List.length_pos.2 (splitSp_ne_nil _)

theorem string_data_mk (l : List Char) : (String.mk l).data = l := rfl

theorem preview_len (l : List Char) :
    (l.take 150 ++ (if 150 < l.length then ['.', '.', '.'] else [])).length ≤ 153 := by
  have h2 := List.length_take_le 150 l
  split <;> simp only [List.length_append, List.length_cons, List.length_nil] <;> omega

theorem readTimeWords_le (t : TNode) : readTimeWords t ≤ 154 := by
  have h1 : (getPreviewText t).data.length ≤ 153 := by
    simp only [getPreviewText, string_data_mk]
    exact preview_len _
  have h3 := splitSp_length_le (getPreviewText t).data
  rw [readTimeWords]
  omega

/-! ## Claim C3 -/

/-- C3 counterexample: the paragraph with one `{bold, italic}`-marked text node
"hello" renders as `<p><em><strong>hello</strong></em></p>` followed by a newline —
the first-listed mark ends up innermost and a newline is appended — which differs
from the claimed exact output `<p><strong><em>hello</em></strong></p>`. -/
theorem render_marks_order_cex :
    convertNodeToHtml boldItalicPara = "<p><em><strong>hello</strong></em></p>\n" ∧
      "<p><em><strong>hello</strong></em></p>\n" ≠ "<p><strong><em>hello</em></strong></p>" :=
  ⟨rfl, by decide⟩

/-- C3 (amended): the paragraph with one text node "hello" carrying marks
`[bold, italic]` renders as `<p><em><strong>hello</strong></em></p>` plus a trailing
newline; in general a text node's marks are applied in list order, each wrapping the
result so far, so the first-listed mark is innermost. -/
theorem render_bold_italic_paragraph :
    convertNodeToHtml boldItalicPara = "<p><em><strong>hello</strong></em></p>\n" ∧
      ∀ (s : String) (ms : List String) (a : Attrs),
        convertNodeToHtml (.node "text" (some s) ms a []) = ms.foldl applyMark s := by
  refine ⟨rfl, ?_⟩
  intro s ms a
  simp [convertNodeToHtml]

/-! ## Claim C4 -/

/-- C4: the renderer emits, for a checked task item, the checkbox input BEFORE the
opening `<li class="task-item checked">` tag, not inside the `li` as claimed (and as
the spec's own mapping table states): the output starts with `<input`, not `<li`. -/
theorem render_taskItem_checkbox_outside :
    convertNodeToHtml checkedTaskItem =
      "<input type=\"checkbox\" checked disabled /> <li class=\"task-item checked\">Task</li>\n" ∧
      strStartsWith (convertNodeToHtml checkedTaskItem) "<input" = true ∧
      strStartsWith (convertNodeToHtml checkedTaskItem) "<li" = false :=
  ⟨rfl, by decide, by decide⟩

/-! ## Claim C5 -/

/-- C5: the renderer has no `image` case at all — an image node falls through to the
default `div` branch and renders as an empty `<div></div>` (plus newline) with its
`src` discarded; no `<img>` tag occurs in the output. -/
theorem render_image_no_img_tag :
    convertNodeToHtml simpleImage = "<div></div>\n" ∧
      strContains (convertNodeToHtml simpleImage) "<img" = false :=
  ⟨rfl, by decide⟩

/-! ## Claim C8 -/

set_option maxRecDepth 100000 in
/-- C8 counterexample: a 201-word document. The code's read time is computed from
the 150-character-truncated preview, giving "1 min read", while the claimed formula
`ceil(wordCount / 200)` over the document's word count gives 2 minutes. -/
theorem calculateReadTime_not_wordcount_cex :
    specWordCount readTimeCexDoc = 201 ∧
      specReadTime readTimeCexDoc = "2 min read" ∧
      calculateReadTime readTimeCexDoc = "1 min read" ∧
      ("1 min read" : String) ≠ "2 min read" :=
  ⟨by decide, by decide, by decide, by decide⟩

/-- C8 (amended): `calculateReadTime` always returns "1 min read": it applies the
`ceil(words / 200)` formula to the word count of the TRUNCATED preview text (at most
153 characters, hence at most 154 space-separated segments and at least 1), so the
ceiling is always 1. In particular the estimate is (trivially) monotonically
non-decreasing and at least 1 minute, but it does not track the document's word
count. -/
theorem calculateReadTime_always_one (t : TNode) : calculateReadTime t = "1 min read" := by
  have h1 := readTimeWords_pos t
  have h2 := readTimeWords_le t
  have h3 : (readTimeWords t + 199) / 200 = 1 := by omega
  rw [calculateReadTime, h3]
  rfl

/-! ## Claim C9 -/

/-- C9: the HTML renderer is deterministic — it is modelled by pure functions, so
two renders of equal trees are byte-identical (it reads no clock, randomness or
mutable state). -/
theorem renderHtml_deterministic (t1 t2 : TNode) (h : t1 = t2) :
    convertNodeToHtml t1 = convertNodeToHtml t2 ∧
      tiptapToHtml (.nodeInput t1) = tiptapToHtml (.nodeInput t2) := by
  subst h
  exact ⟨rfl, rfl⟩

/-- Witness for C9 at a concrete tree. -/
theorem renderHtml_deterministic_witness :
    convertNodeToHtml demoTree = convertNodeToHtml demoTree ∧
      tiptapToHtml (.nodeInput demoTree) = tiptapToHtml (.nodeInput demoTree) :=
  renderHtml_deterministic demoTree demoTree rfl

/-! ## Claim C10 -/

/-- C10: `tiptapToHtml` is total (it is a function into `String` on every input
shape) and returns the literal fallback `<p>Error: Invalid content format</p>` for
every string input that fails JSON parsing, and `<p>No content to export</p>` for
null or undefined input. -/
theorem tiptapToHtml_fallbacks :
    (∀ s : String, jsonParse s.data = none →
        tiptapToHtml (.strInput s) = "<p>Error: Invalid content format</p>") ∧
      tiptapToHtml .nullInput = "<p>No content to export</p>" ∧
      tiptapToHtml .undefinedInput = "<p>No content to export</p>" := by
  refine ⟨?_, rfl, rfl⟩
  intro s h
  simp [tiptapToHtml, h]

/-- Witness for C10 at the concrete non-JSON input consisting of one opening
brace. -/
theorem tiptapToHtml_fallbacks_witness :
    tiptapToHtml (.strInput (String.mk [Char.ofNat 123])) =
      "<p>Error: Invalid content format</p>" :=
  tiptapToHtml_fallbacks.1 (String.mk [Char.ofNat 123]) rfl

/-! ## Claim C1 -/

theorem exists_mem_append {α : Type} {P : α → Prop} (l1 l2 : List α) :
    (∃ x ∈ l1 ++ l2, P x) ↔ (∃ x ∈ l1, P x) ∨ ∃ x ∈ l2, P x := by
  constructor
  · rintro ⟨x, hx, hp⟩
    rcases List.mem_append.1 hx with h | h
    · exact Or.inl ⟨x, h, hp⟩
    · exact Or.inr ⟨x, h, hp⟩
  · rintro (⟨x, hx, hp⟩ | ⟨x, hx, hp⟩)
    · exact ⟨x, List.mem_append.2 (Or.inl hx), hp⟩
    · exact ⟨x, List.mem_append.2 (Or.inr hx), hp⟩

theorem imageRef_mem (n : TNode) (p : String) :
    p ∈ imageRef n ↔
      n.ty = "image" ∧ ∃ s, n.attrs.src = some s ∧ normalizeSrc s = some p := by
  rw [imageRef]
  by_cases h : n.ty = "image"
  · rw [if_pos h]
    cases hs : n.attrs.src with
    | none => simp [h, hs]
    | some s =>
      simp only [h, hs, true_and, Option.some.injEq]
      cases hn : normalizeSrc s <;> simp [hn, eq_comm]
  · simp [h]

theorem collectPaths_mem (t : TNode) :
    ∀ p, p ∈ collectPaths t ↔
      ∃ n ∈ subnodes t, n.ty = "image" ∧
        ∃ s, n.attrs.src = some s ∧ normalizeSrc s = some p := by
  induction t using tnodeInduction with
  | h ty tx ms a c ih =>
    have hl : ∀ ns, (∀ n ∈ ns, ∀ p, p ∈ collectPaths n ↔
          ∃ m ∈ subnodes n, m.ty = "image" ∧
            ∃ s, m.attrs.src = some s ∧ normalizeSrc s = some p) →
        ∀ p, p ∈ collectPathsList ns ↔
          ∃ m ∈ subnodesList ns, m.ty = "image" ∧
            ∃ s, m.attrs.src = some s ∧ normalizeSrc s = some p := by
      intro ns
      induction ns with
      | nil => intro _ p; simp [collectPathsList, subnodesList]
      | cons n t2 ih2 =>
        intro hall p
        simp only [collectPathsList, subnodesList]
        rw [exists_mem_append, List.mem_append,
          hall n (List.mem_cons_self _ _),
          ih2 (fun m hm => hall m (List.mem_cons_of_mem _ hm))]
    intro p
    simp only [collectPaths, subnodes]
    rw [List.mem_append, imageRef_mem, hl c ih]
    constructor
    · rintro (hc | ⟨m, hm, hcond⟩)
      · exact ⟨.node ty tx ms a c, List.mem_cons_self _ _, hc⟩
      · exact ⟨m, List.mem_cons_of_mem _ hm, hcond⟩
    · rintro ⟨m, hm, hcond⟩
      rcases List.mem_cons.1 hm with rfl | hm
      · exact Or.inl hcond
      · exact Or.inr ⟨m, hm, hcond⟩

theorem collectPathsList_mem (ns : List TNode) (p : String) :
    p ∈ collectPathsList ns ↔
      ∃ m ∈ subnodesList ns, m.ty = "image" ∧
        ∃ s, m.attrs.src = some s ∧ normalizeSrc s = some p := by
  induction ns with
  | nil => simp [collectPathsList, subnodesList]
  | cons n t ih =>
    simp only [collectPathsList, subnodesList]
    rw [List.mem_append, exists_mem_append, collectPaths_mem n p, ih]

/-- C1 counterexample: a pending image node (placeholder flag `data-temp = true`)
whose `src` is a bare storage path IS included by `extractImagePaths` — the function
never reads the pending flag — refuting the claimed exclusion of pending image
nodes. -/
theorem extractImagePaths_pending_not_excluded :
    pendingImageNode.attrs.dataTemp = some true ∧
      pendingDoc.content = [pendingImageNode] ∧
      extractImagePaths pendingDoc = ["users/u1/images/photo.png"] :=
  ⟨rfl, rfl, rfl⟩

/-- C1 (amended): `extractImagePaths` never consults the pending/placeholder flag.
With set semantics (a duplicate-free result), it contains exactly the normalized
identifiers of those image nodes below the root whose string `src` normalizes to a
reference — the decoded object path for firebasestorage URLs (nothing when URL
parsing or decoding fails), bare `users/…/images/…` paths verbatim, and other
`http…` URLs verbatim; every other image node (pending or not, including
`blob:`/`data:` placeholder previews) contributes nothing. -/
theorem extractImagePaths_refSet (t : TNode) :
    (extractImagePaths t).Nodup ∧
      ∀ p, p ∈ extractImagePaths t ↔
        ∃ n ∈ subnodesList t.content, n.ty = "image" ∧
          ∃ s, n.attrs.src = some s ∧ normalizeSrc s = some p := by
  refine ⟨dedupFirst_nodup _, ?_⟩
  intro p
  rw [extractImagePaths, dedupFirst_mem, collectPathsList_mem]

/-! ## Claim C2 -/

theorem map_fst_flatMap (f : String → List (String × Bool)) (g : String → Option String)
    (h : ∀ u, (f u).map Prod.fst = (g u).toList) :
    ∀ l : List String, (l.flatMap f).map Prod.fst = l.filterMap g := by
  intro l
  induction l with
  | nil => rfl
  | cons a t ih =>
    rw [List.flatMap_cons, List.map_append, ih, List.filterMap_cons, h a]
    cases g a <;> simp

/-- C2 counterexample: with `previousRefs = {staleUrl}` (a firebasestorage URL with
no extractable `/o/…` object path) and an empty document (`newRefs = {}`), the claim
demands that exactly `staleUrl` be submitted for deletion, but the tick submits
nothing at all (the baseline does become the new, empty, reference set). -/
theorem trackImagesAndCleanup_not_exact_diff :
    hookRefs emptyDoc = [] ∧
      (trackImagesAndCleanup (fun _ => false) [staleUrl] emptyDoc).submitted = [] ∧
      (trackImagesAndCleanup (fun _ => false) [staleUrl] emptyDoc).baseline = [] :=
  ⟨rfl, rfl, rfl⟩

/-- C2 (amended): one sweep tick submits a delete request for exactly the
extractable storage paths of the non-`blob:` identifiers in
`previousRefs − newRefs`: an identifier containing `blob:`, or from which no
nonempty storage path can be extracted (no `/o/…` segment in its URL path, URL parse
failure, …), yields no request, and what is submitted is the decoded storage path
rather than the identifier itself. The stored baseline becomes `newRefs` minus any
`blob:` identifiers, and both the submitted set and the baseline are independent of
which deletes succeed or fail. -/
theorem trackImagesAndCleanup_sweep (fails : String → Bool) (prev : List String)
    (t : TNode) :
    ((trackImagesAndCleanup fails prev t).submitted.map Prod.fst =
      (prev.filter (fun u => u ∉ hookRefs t)).filterMap (fun u =>
        if strContains u "blob:" then none
        else
          match extractStoragePathFromUrl u with
          | some p => if p = "" then none else some p
          | none => none)) ∧
    ((trackImagesAndCleanup fails prev t).baseline =
      (hookRefs t).filter (fun u => !strContains u "blob:")) ∧
    ∀ g : String → Bool,
      (trackImagesAndCleanup g prev t).submitted.map Prod.fst =
          (trackImagesAndCleanup fails prev t).submitted.map Prod.fst ∧
        (trackImagesAndCleanup g prev t).baseline =
          (trackImagesAndCleanup fails prev t).baseline := by
  have ha : ∀ f2 : String → Bool,
      (trackImagesAndCleanup f2 prev t).submitted.map Prod.fst =
        (prev.filter (fun u => u ∉ hookRefs t)).filterMap (fun u =>
          if strContains u "blob:" then none
          else
            match extractStoragePathFromUrl u with
            | some p => if p = "" then none else some p
            | none => none) := by
    intro f2
    simp only [trackImagesAndCleanup]
    apply map_fst_flatMap
    intro u
    by_cases hb : strContains u "blob:"
    · simp [hb]
    · simp only [hb, if_false, Bool.false_eq_true]
      cases he : extractStoragePathFromUrl u with
      | none => simp
      | some p =>
        by_cases hp : p = ""
        · simp [hp, deleteImage]
        · simp [hp, deleteImage]
  exact ⟨ha fails, rfl, fun g => ⟨(ha g).trans (ha fails).symm, rfl⟩⟩

/-! ## Claim C6 -/

/-- C6 counterexample: a node of unknown kind `mystery` with one text child renders
as `<div>x</div>` plus newline — a `div` wrapper around the children — not as the
children alone. -/
theorem render_unknown_wrapped_cex :
    convertNodeToHtml mysteryNode = "<div>x</div>\n" ∧
      convertListToHtml mysteryNode.content = "x" ∧
      convertNodeToHtml mysteryNode ≠ convertListToHtml mysteryNode.content :=
  ⟨rfl, rfl, by decide⟩

/-- C6 (amended): a node whose kind is none of the recognized kinds renders as its
concatenated children wrapped in a `<div>` element (carrying the text-align style
when present) followed by a newline; the renderer is total, so it never throws. -/
theorem render_unknown_div_wrapper (ty : String) (tx : Option String) (ms : List String)
    (a : Attrs) (c : List TNode)
    (h : ty ∉ ["text", "paragraph", "heading", "bulletList", "orderedList", "listItem",
      "taskList", "taskItem", "horizontalRule", "hardBreak", "doc"]) :
    convertNodeToHtml (.node ty tx ms a c) =
      "<div"
        ++ (if (styleAttrList a).isEmpty then ""
          else " " ++ String.intercalate " " (styleAttrList a))
        ++ ">" ++ convertListToHtml c ++ "</div>" ++ "\n" := by
  simp only [List.mem_cons, not_or] at h
  obtain ⟨h1, h2, h3, h4, h5, h6, h7, h8, h9, h10, h11, -⟩ := h
  have hd : ("div" : String) ∈ blockTags := by decide
  simp only [convertNodeToHtml, h1, h2, h3, h4, h5, h6, h7, h8, h9, h10, h11, if_false,
    List.nil_append, hd, if_true]
  apply String.ext
  simp [String.data_append]

/-- Witness for C6's theorem at a concrete unknown node. -/
theorem render_unknown_div_wrapper_witness :
    convertNodeToHtml
        (.node "mystery2" (some "y") ["bold"] emptyAttrs
          [.node "text" (some "x") [] emptyAttrs []]) =
      "<div"
        ++ (if (styleAttrList emptyAttrs).isEmpty then ""
          else " " ++ String.intercalate " " (styleAttrList emptyAttrs))
        ++ ">" ++ convertListToHtml [.node "text" (some "x") [] emptyAttrs []]
        ++ "</div>" ++ "\n" :=
  render_unknown_div_wrapper "mystery2" (some "y") ["bold"] emptyAttrs
    [.node "text" (some "x") [] emptyAttrs []] (by decide)

/-! ## Claim C7: typed-view (decode) side -/

theorem char_toNat_ofNat {n : Nat} (h : Nat.isValidChar n) : (Char.ofNat n).toNat = n := by
  rw [Char.ofNat, dif_pos h]
  rfl

theorem optOr_none_right (a : Option Json) : optOr a none = a := by
  cases a <;> rfl

theorem jsGet_append (k : String) (l1 l2 : List (String × Json)) :
    jsGet k (l1 ++ l2) = optOr (jsGet k l2) (jsGet k l1) := by
  induction l1 with
  | nil =>
    cases h : jsGet k l2 <;> simp [jsGet, optOr, h]
  | cons kv t ih =>
    obtain ⟨k2, v⟩ := kv
    cases hl2 : jsGet k l2 <;> cases ht : jsGet k t <;>
      simp_all [jsGet, optOr]

theorem jsGet_optSeg_self (k : String) (o : Option Json) : jsGet k (optSeg k o) = o := by
  cases o <;> simp [optSeg, jsGet]

theorem jsGet_optSeg_ne (k key : String) (o : Option Json) (h : key ≠ k) :
    jsGet k (optSeg key o) = none := by
  cases o <;> simp [optSeg, jsGet, h]

theorem jsGet_skip (k key : String) (o : Option Json) (rest : List (String × Json))
    (h : key ≠ k) : jsGet k (optSeg key o ++ rest) = jsGet k rest := by
  rw [jsGet_append, jsGet_optSeg_ne _ _ _ h, optOr_none_right]

theorem jsGet_hit (k : String) (o : Option Json) (rest : List (String × Json))
    (h : jsGet k rest = none) : jsGet k (optSeg k o ++ rest) = o := by
  rw [jsGet_append, h, jsGet_optSeg_self]
  rfl

theorem jsGet_cons_ne (k k2 : String) (v : Json) (rest : List (String × Json))
    (h : k2 ≠ k) : jsGet k ((k2, v) :: rest) = jsGet k rest := by
  cases hr : jsGet k rest <;> simp [jsGet, hr, h]

theorem jsGet_cons_last (k : String) (v : Json) (rest : List (String × Json))
    (h : jsGet k rest = none) : jsGet k ((k, v) :: rest) = some v := by
  simp [jsGet, h]

theorem natCharsAux_spec :
    ∀ fuel n, n < fuel →
      natCharsAux fuel n ≠ [] ∧ (∀ c ∈ natCharsAux fuel n, isDigitChar c = true) ∧
        digitsToNat (natCharsAux fuel n) = n := by
  intro fuel
  induction fuel with
  | zero => intro n h; exact absurd h (Nat.not_lt_zero n)
  | succ f ih =>
    intro n h
    by_cases h10 : n < 10
    · rw [natCharsAux, if_pos h10]
      refine ⟨by simp, ?_, ?_⟩
      · intro c hc
        simp only [List.mem_singleton] at hc
        subst hc
        interval_cases n <;> decide
      · have hn : (Char.ofNat (48 + n)).toNat = 48 + n := by
          interval_cases n <;> decide
        simp [digitsToNat, hn]
    · rw [natCharsAux, if_neg h10]
      have hdiv : n / 10 < f := by omega
      obtain ⟨hne, hdig, hval⟩ := ih (n / 10) hdiv
      have hm : n % 10 < 10 := Nat.mod_lt _ (by omega)
      have hmn : (Char.ofNat (48 + n % 10)).toNat = 48 + n % 10 := by
        revert hm
        generalize n % 10 = m
        intro hm
        interval_cases m <;> decide
      have hmd : isDigitChar (Char.ofNat (48 + n % 10)) = true := by
        revert hm
        generalize n % 10 = m
        intro hm
        interval_cases m <;> decide
      refine ⟨by simp, ?_, ?_⟩
      · intro c hc
        rcases List.mem_append.1 hc with hc | hc
        · exact hdig c hc
        · simp only [List.mem_singleton] at hc
          subst hc
          exact hmd
      · rw [digitsToNat, List.foldl_append]
        rw [digitsToNat] at hval
        simp only [List.foldl_cons, List.foldl_nil, hval, hmn]
        omega

theorem natChars_spec (n : Nat) :
    natChars n ≠ [] ∧ (∀ c ∈ natChars n, isDigitChar c = true) ∧
      digitsToNat (natChars n) = n :=
  natCharsAux_spec (n + 1) n (by omega)

theorem rawToNat_natChars (n : Nat) : rawToNat (String.mk (natChars n)) = some n := by
  obtain ⟨h1, h2, h3⟩ := natChars_spec n
  have hall : (natChars n).all isDigitChar = true := List.all_eq_true.2 h2
  simp [rawToNat, string_data_mk, h1, hall, h3]

theorem markTypeOf_markToJson (m : String) : markTypeOf (markToJson m) = m := rfl

theorem attrsMembers_isEmpty (a : Attrs) (h : (attrsMembers a).isEmpty = true) :
    a = emptyAttrs := by
  obtain ⟨l, ta, ch, s, al, dt⟩ := a
  cases l <;> cases ta <;> cases ch <;> cases s <;> cases al <;> cases dt <;>
    simp_all [attrsMembers, optSeg, emptyAttrs]

theorem optSeg_keys (key k : String) (o : Option Json) (h : key ≠ k) :
    ∀ kv ∈ optSeg key o, kv.1 ≠ k := by
  cases o <;> simp [optSeg, h]

theorem jsonChildrenOf_skip (seg l : List (String × Json))
    (h : ∀ kv ∈ seg, kv.1 ≠ "content") :
    jsonChildrenOf (seg ++ l) = jsonChildrenOf l := by
  induction seg with
  | nil => rfl
  | cons kv t ih =>
    obtain ⟨k2, v⟩ := kv
    have hk : k2 ≠ "content" := h (k2, v) (List.mem_cons_self _ _)
    have ih2 := ih fun kv2 hm => h kv2 (List.mem_cons_of_mem _ hm)
    rw [List.cons_append]
    show (if k2 = "content" then
        if hasKey "content" (t ++ l) then jsonChildrenOf (t ++ l) else jsonArrNodes v
      else jsonChildrenOf (t ++ l)) = jsonChildrenOf l
    rw [if_neg hk]
    exact ih2

theorem jsGetAttrs_build (kvs : List (String × Json)) (a : Attrs)
    (hobj : jsGet "attrs" kvs = some (Json.obj (attrsMembers a))) : jsGetAttrs kvs = a := by
  have hlevel : jsGet "level" (attrsMembers a) =
      a.level.map fun l => Json.num (String.mk (natChars l)) := by
    rw [attrsMembers, jsGet_hit]
    rw [jsGet_skip _ _ _ _ (by decide), jsGet_skip _ _ _ _ (by decide),
      jsGet_skip _ _ _ _ (by decide), jsGet_skip _ _ _ _ (by decide),
      jsGet_optSeg_ne _ _ _ (by decide)]
  have hta : jsGet "textAlign" (attrsMembers a) = a.textAlign.map Json.str := by
    rw [attrsMembers, jsGet_skip _ _ _ _ (by decide), jsGet_hit]
    rw [jsGet_skip _ _ _ _ (by decide), jsGet_skip _ _ _ _ (by decide),
      jsGet_skip _ _ _ _ (by decide), jsGet_optSeg_ne _ _ _ (by decide)]
  have hch : jsGet "checked" (attrsMembers a) = a.checked.map Json.bool := by
    rw [attrsMembers, jsGet_skip _ _ _ _ (by decide), jsGet_skip _ _ _ _ (by decide),
      jsGet_hit]
    rw [jsGet_skip _ _ _ _ (by decide), jsGet_skip _ _ _ _ (by decide),
      jsGet_optSeg_ne _ _ _ (by decide)]
  have hsrc : jsGet "src" (attrsMembers a) = a.src.map Json.str := by
    rw [attrsMembers, jsGet_skip _ _ _ _ (by decide), jsGet_skip _ _ _ _ (by decide),
      jsGet_skip _ _ _ _ (by decide), jsGet_hit]
    rw [jsGet_skip _ _ _ _ (by decide), jsGet_optSeg_ne _ _ _ (by decide)]
  have halt : jsGet "alt" (attrsMembers a) = a.alt.map Json.str := by
    rw [attrsMembers, jsGet_skip _ _ _ _ (by decide), jsGet_skip _ _ _ _ (by decide),
      jsGet_skip _ _ _ _ (by decide), jsGet_skip _ _ _ _ (by decide), jsGet_hit]
    rw [jsGet_optSeg_ne _ _ _ (by decide)]
  have hdt : jsGet "data-temp" (attrsMembers a) = a.dataTemp.map Json.bool := by
    rw [attrsMembers, jsGet_skip _ _ _ _ (by decide), jsGet_skip _ _ _ _ (by decide),
      jsGet_skip _ _ _ _ (by decide), jsGet_skip _ _ _ _ (by decide),
      jsGet_skip _ _ _ _ (by decide), jsGet_optSeg_self]
  simp only [jsGetAttrs, hobj, jsGetNat, jsGetStr, jsGetBool, hlevel, hta, hch, hsrc,
    halt, hdt]
  obtain ⟨l, ta, ch, s, al, dt⟩ := a
  cases l <;> cases ta <;> cases ch <;> cases s <;> cases al <;> cases dt <;>
    simp [rawToNat_natChars]

theorem jsonChildrenOf_cons_ne (k : String) (v : Json) (rest : List (String × Json))
    (h : k ≠ "content") : jsonChildrenOf ((k, v) :: rest) = jsonChildrenOf rest := by
  show (if k = "content" then
      if hasKey "content" rest then jsonChildrenOf rest else jsonArrNodes v
    else jsonChildrenOf rest) = jsonChildrenOf rest
  rw [if_neg h]

theorem jsGet_type_L (ty : String) (txj mo ao co : Option Json) :
    jsGet "type" (("type", Json.str ty)
        :: (optSeg "text" txj ++ (optSeg "marks" mo
          ++ (optSeg "attrs" ao ++ optSeg "content" co)))) = some (Json.str ty) := by
  apply jsGet_cons_last
  rw [jsGet_skip _ _ _ _ (by decide), jsGet_skip _ _ _ _ (by decide),
    jsGet_skip _ _ _ _ (by decide), jsGet_optSeg_ne _ _ _ (by decide)]

theorem jsGet_text_L (ty : String) (txj mo ao co : Option Json) :
    jsGet "text" (("type", Json.str ty)
        :: (optSeg "text" txj ++ (optSeg "marks" mo
          ++ (optSeg "attrs" ao ++ optSeg "content" co)))) = txj := by
  rw [jsGet_cons_ne _ _ _ _ (by decide), jsGet_hit]
  rw [jsGet_skip _ _ _ _ (by decide), jsGet_skip _ _ _ _ (by decide),
    jsGet_optSeg_ne _ _ _ (by decide)]

theorem jsGet_marks_L (ty : String) (txj mo ao co : Option Json) :
    jsGet "marks" (("type", Json.str ty)
        :: (optSeg "text" txj ++ (optSeg "marks" mo
          ++ (optSeg "attrs" ao ++ optSeg "content" co)))) = mo := by
  rw [jsGet_cons_ne _ _ _ _ (by decide), jsGet_skip _ _ _ _ (by decide), jsGet_hit]
  rw [jsGet_skip _ _ _ _ (by decide), jsGet_optSeg_ne _ _ _ (by decide)]

theorem jsGet_attrs_L (ty : String) (txj mo ao co : Option Json) :
    jsGet "attrs" (("type", Json.str ty)
        :: (optSeg "text" txj ++ (optSeg "marks" mo
          ++ (optSeg "attrs" ao ++ optSeg "content" co)))) = ao := by
  rw [jsGet_cons_ne _ _ _ _ (by decide), jsGet_skip _ _ _ _ (by decide),
    jsGet_skip _ _ _ _ (by decide), jsGet_hit]
  rw [jsGet_optSeg_ne _ _ _ (by decide)]

theorem jsChildren_L (ty : String) (txj mo ao co : Option Json) :
    jsonChildrenOf (("type", Json.str ty)
        :: (optSeg "text" txj ++ (optSeg "marks" mo
          ++ (optSeg "attrs" ao ++ optSeg "content" co)))) =
      jsonChildrenOf (optSeg "content" co) := by
  rw [jsonChildrenOf_cons_ne _ _ _ (by decide),
    jsonChildrenOf_skip _ _ (optSeg_keys _ _ _ (by decide)),
    jsonChildrenOf_skip _ _ (optSeg_keys _ _ _ (by decide)),
    jsonChildrenOf_skip _ _ (optSeg_keys _ _ _ (by decide))]

theorem jsonToTNode_obj_eq (kvs : List (String × Json)) :
    jsonToTNode (Json.obj kvs) =
      TNode.node ((jsGetStr "type" kvs).getD "") (jsGetStr "text" kvs) (jsGetMarks kvs)
        (jsGetAttrs kvs) (jsonChildrenOf kvs) := rfl

theorem jsonNodesOf_nodesToJson (ns : List TNode)
    (ih : ∀ n ∈ ns, jsonToTNode (nodeToJson n) = n) :
    jsonNodesOf (nodesToJson ns) = ns := by
  induction ns with
  | nil => rfl
  | cons n t iht =>
    show jsonToTNode (nodeToJson n) :: jsonNodesOf (nodesToJson t) = n :: t
    rw [ih n (List.mem_cons_self _ _), iht fun m hm => ih m (List.mem_cons_of_mem _ hm)]

theorem jsonToTNode_nodeToJson : ∀ t : TNode, jsonToTNode (nodeToJson t) = t := by
  intro t
  induction t using tnodeInduction with
  | h ty tx ms a c ih =>
    have hnodes : jsonNodesOf (nodesToJson c) = c := jsonNodesOf_nodesToJson c ih
    simp only [nodeToJson, jsonToTNode_obj_eq]
    congr 1
    · simp only [jsGetStr, jsGet_type_L]
      rfl
    · simp only [jsGetStr, jsGet_text_L]
      cases tx <;> rfl
    · simp only [jsGetMarks, jsGet_marks_L]
      cases ms with
      | nil => rfl
      | cons m ms' =>
        show ((m :: ms').map markToJson).map markTypeOf = m :: ms'
        have hmm2 : ∀ l : List String, List.map (markTypeOf ∘ markToJson) l = l := by
          intro l
          induction l with
          | nil => rfl
          | cons x xs ihx => simp [Function.comp, markTypeOf_markToJson, ihx]
        rw [List.map_map, hmm2]
    · by_cases hA : (attrsMembers a).isEmpty = true
      · have ha : a = emptyAttrs := attrsMembers_isEmpty a hA
        simp only [jsGetAttrs, jsGet_attrs_L, hA, if_pos]
        exact ha.symm
      · exact jsGetAttrs_build _ a (by rw [jsGet_attrs_L, if_neg hA])
    · rw [jsChildren_L]
      cases c with
      | nil => rfl
      | cons n ns =>
        calc jsonChildrenOf (optSeg "content"
              (if (n :: ns).isEmpty then none else some (Json.arr (nodesToJson (n :: ns)))))
            = jsonNodesOf (nodesToJson (n :: ns)) := rfl
          _ = n :: ns := hnodes

/-! ## Claim C7: parse-of-print side -/

theorem string_mk_data (s : String) : String.mk s.data = s := rfl

theorem skipWs_not (c : Char) (l : List Char) (h : isJsonWs c = false) :
    skipWs (c :: l) = c :: l := by
  simp [skipWs, List.dropWhile_cons, h]

theorem takeWhile_append_all (p : Char → Bool) (l1 l2 : List Char)
    (h1 : ∀ c ∈ l1, p c = true) (h2 : ∀ c, l2.head? = some c → p c = false) :
    (l1 ++ l2).takeWhile p = l1 ∧ (l1 ++ l2).dropWhile p = l2 := by
  induction l1 with
  | nil =>
    cases l2 with
    | nil => simp
    | cons b t =>
      have hb := h2 b rfl
      simp [List.takeWhile_cons, List.dropWhile_cons, hb]
  | cons a t ih =>
    have ha := h1 a (List.mem_cons_self _ _)
    obtain ⟨ht, hd⟩ := ih fun c hc => h1 c (List.mem_cons_of_mem _ hc)
    simp [List.takeWhile_cons, List.dropWhile_cons, ha, ht, hd]

theorem dropWhile_all (p : Char → Bool) (l : List Char) (h : ∀ c ∈ l, p c = true) :
    l.dropWhile p = [] := by
  induction l with
  | nil => rfl
  | cons a t ih =>
    have ha := h a (List.mem_cons_self _ _)
    simp [List.dropWhile_cons, ha, ih fun c hc => h c (List.mem_cons_of_mem _ hc)]

theorem hexVal_hexDigitChar (m : Nat) (h : m < 16) : hexVal (hexDigitChar m) = some m := by
  interval_cases m <;> decide

theorem parseStrChars_escape (s rest : List Char) :
    parseStrChars (escapeChars s ++ ('"' :: rest)) = some (s, rest) := by
  induction s with
  | nil => rfl
  | cons c cs ih =>
    show parseStrChars ((escChar c ++ escapeChars cs) ++ ('"' :: rest)) = some (c :: cs, rest)
    rw [List.append_assoc]
    by_cases h1 : c = '"'
    · subst h1
      simp [escChar, parseStrChars, parseEsc, escSimple, consStr, ih]
    · by_cases h2 : c = '\\'
      · subst h2
        simp [escChar, parseStrChars, parseEsc, escSimple, consStr, ih]
      · by_cases h3 : c = Char.ofNat 8
        · subst h3
          simp [escChar, parseStrChars, parseEsc, escSimple, consStr, ih]
        · by_cases h4 : c = Char.ofNat 9
          · subst h4
            simp [escChar, parseStrChars, parseEsc, escSimple, consStr, ih]
          · by_cases h5 : c = Char.ofNat 10
            · subst h5
              simp [escChar, parseStrChars, parseEsc, escSimple, consStr, ih]
            · by_cases h6 : c = Char.ofNat 12
              · subst h6
                simp [escChar, parseStrChars, parseEsc, escSimple, consStr, ih]
              · by_cases h7 : c = Char.ofNat 13
                · subst h7
                  simp [escChar, parseStrChars, parseEsc, escSimple, consStr, ih]
                · by_cases h8 : c.toNat < 32
                  · have hesc : escChar c =
                        ['\\', 'u', '0', '0', hexDigitChar (c.toNat / 16),
                          hexDigitChar (c.toNat % 16)] := by
                      rw [escChar, if_neg h1, if_neg h2, if_neg h3, if_neg h4, if_neg h5,
                        if_neg h6, if_neg h7, if_pos h8]
                    rw [hesc]
                    have hhi : hexVal (hexDigitChar (c.toNat / 16)) = some (c.toNat / 16) :=
                      hexVal_hexDigitChar _ (by omega)
                    have hlo : hexVal (hexDigitChar (c.toNat % 16)) = some (c.toNat % 16) :=
                      hexVal_hexDigitChar _ (by omega)
                    have hn : ((0 * 16 + 0) * 16 + c.toNat / 16) * 16 + c.toNat % 16 =
                        c.toNat := by omega
                    have hlt : c.toNat < 0xD800 := by omega
                    have h00 : hexVal '0' = some 0 := by decide
                    have hn2 : c.toNat / 16 * 16 + c.toNat % 16 = c.toNat := by omega
                    simp [parseStrChars, parseEsc, parseUHex, hex4, h00, hhi, hlo, hn,
                      hn2, hlt, consStr, ih]
                  · have hesc : escChar c = [c] := by
                      rw [escChar, if_neg h1, if_neg h2, if_neg h3, if_neg h4, if_neg h5,
                        if_neg h6, if_neg h7, if_neg h8]
                    rw [hesc]
                    have h32 : (c.toNat < 32) = False := by simp [h8]
                    simp [parseStrChars, h1, h2, h32, consStr, ih]

theorem digit_ne (c : Char) (h : isDigitChar c = true) (d : Char)
    (hd : isDigitChar d = false) : c ≠ d := by
  intro e
  subst e
  rw [h] at hd
  exact absurd hd (by decide)

theorem digit_not_jsonWs (c : Char) (h : isDigitChar c = true) : isJsonWs c = false := by
  have e1 : c ≠ ' ' := digit_ne c h _ (by decide)
  have e2 : c ≠ '\t' := digit_ne c h _ (by decide)
  have e3 : c ≠ '\n' := digit_ne c h _ (by decide)
  have e4 : c ≠ '\r' := digit_ne c h _ (by decide)
  simp [isJsonWs, e1, e2, e3, e4]

theorem validNumTail_nil : validNumTail [] = true := rfl

theorem validNum_natCharsAux :
    ∀ fuel n, n < fuel →
      validNum (natCharsAux fuel n) = true ∧
        (1 ≤ n → ∀ t, natCharsAux fuel n ≠ '0' :: t) := by
  intro fuel
  induction fuel with
  | zero => intro n h; exact absurd h (Nat.not_lt_zero n)
  | succ f ih =>
    intro n h
    by_cases h10 : n < 10
    · rw [natCharsAux, if_pos h10]
      constructor
      · interval_cases n <;> decide
      · intro h1 t
        interval_cases n <;> simp
    · rw [natCharsAux, if_neg h10]
      have hdiv : n / 10 < f := by omega
      obtain ⟨hne, hdig, _⟩ := natCharsAux_spec f (n / 10) hdiv
      obtain ⟨_, hhd⟩ := ih (n / 10) hdiv
      obtain ⟨c, t', hA⟩ : ∃ c t', natCharsAux f (n / 10) = c :: t' := by
        cases hA : natCharsAux f (n / 10) with
        | nil => exact absurd hA hne
        | cons c t' => exact ⟨c, t', rfl⟩
      have hc : isDigitChar c = true := hdig c (hA ▸ List.mem_cons_self _ _)
      have hc0 : c ≠ '0' := by
        intro e
        subst e
        exact hhd (by omega) t' hA
      have hcm : c ≠ '-' := digit_ne c hc _ (by decide)
      have htl : ∀ x ∈ t' ++ [Char.ofNat (48 + n % 10)], isDigitChar x = true := by
        intro x hx
        rcases List.mem_append.1 hx with hx | hx
        · exact hdig x (hA ▸ List.mem_cons_of_mem _ hx)
        · simp only [List.mem_singleton] at hx
          subst hx
          have hm : n % 10 < 10 := Nat.mod_lt _ (by omega)
          revert hm
          generalize n % 10 = m
          intro hm
          interval_cases m <;> decide
      constructor
      · rw [hA, List.cons_append]
        show validNum (c :: (t' ++ [Char.ofNat (48 + n % 10)])) = true
        rw [validNum]
        simp only [hcm, if_false]
        simp only [hc0, if_false, hc, if_true]
        rw [dropWhile_all _ _ htl]
        rfl
      · intro _ t
        rw [hA, List.cons_append]
        intro e
        exact hc0 (List.head_eq_of_cons_eq e)

theorem validNum_natChars (n : Nat) : validNum (natChars n) = true :=
  (validNum_natCharsAux (n + 1) n (by omega)).1

theorem parseNum_natChars (n : Nat) (rest : List Char) (h : headNumOk rest) :
    parseNum (natChars n ++ rest) = some (.num (String.mk (natChars n)), rest) := by
  obtain ⟨hne, hdig, _⟩ := natChars_spec n
  have hnum : ∀ c ∈ natChars n, isNumChar c = true := by
    intro c hc
    rw [isNumChar, hdig c hc]
    rfl
  have h2 : ∀ c, rest.head? = some c → isNumChar c = false := by
    cases rest with
    | nil => intro c hc; exact absurd hc (by simp)
    | cons c0 t =>
      intro c hc
      simp only [List.head?_cons, Option.some.injEq] at hc
      subst hc
      exact h
  obtain ⟨ht, hd⟩ := takeWhile_append_all isNumChar (natChars n) rest hnum h2
  simp [parseNum, ht, hd, validNum_natChars n]

theorem parseValue_digit (fuel : Nat) (c : Char) (l : List Char)
    (hc : isDigitChar c = true) :
    parseValue (fuel + 1) (c :: l) = parseNum (c :: l) := by
  have hws : isJsonWs c = false := digit_not_jsonWs c hc
  have hq : c ≠ '"' := digit_ne c hc _ (by decide)
  have hbr : c ≠ '[' := digit_ne c hc _ (by decide)
  have hbc : c ≠ Char.ofNat 123 := digit_ne c hc _ (by decide)
  have hn : c ≠ 'n' := digit_ne c hc _ (by decide)
  have ht : c ≠ 't' := digit_ne c hc _ (by decide)
  have hf : c ≠ 'f' := digit_ne c hc _ (by decide)
  rw [parseValue, skipWs_not _ _ hws]
  simp only [startsWithL, hq, hbr, hbc, hn, ht, hf, if_false, decide_False,
    Bool.false_and, Bool.false_eq_true]

theorem serStr_shape (s : String) : serStr s = '"' :: (escapeChars s.data ++ ['"']) := rfl

theorem jsonInduction {P : Json → Prop} (hnull : P .null) (hbool : ∀ b, P (.bool b))
    (hnum : ∀ r, P (.num r)) (hstr : ∀ s, P (.str s))
    (harr : ∀ xs, (∀ x ∈ xs, P x) → P (.arr xs))
    (hobj : ∀ kvs, (∀ kv ∈ kvs, P kv.2) → P (.obj kvs)) : ∀ j, P j := by
  have key : ∀ k j, sizeOf j ≤ k → P j := by
    intro k
    induction k with
    | zero =>
      intro j hj
      cases j <;> simp at hj
    | succ k ih =>
      intro j hj
      cases j with
      | null => exact hnull
      | bool b => exact hbool b
      | num r => exact hnum r
      | str s => exact hstr s
      | arr xs =>
        apply harr
        intro x hx
        apply ih
        have h1 : sizeOf x < sizeOf xs := List.sizeOf_lt_of_mem hx
        simp at hj
        omega
      | obj kvs =>
        apply hobj
        intro kv hkv
        apply ih
        have h1 : sizeOf kv < sizeOf kvs := List.sizeOf_lt_of_mem hkv
        have h2 : sizeOf kv.2 < sizeOf kv := by
          obtain ⟨a, b⟩ := kv
          simp
        simp at hj
        omega
  intro j
  exact key (sizeOf j) j le_rfl

theorem stripHead_eq (c : Char) (r : List Char) : stripHead c (c :: r) = some r := by
  simp [stripHead]

theorem stripHead_ne (c x : Char) (r : List Char) (h : x ≠ c) :
    stripHead c (x :: r) = none := by
  simp [stripHead, h]

theorem needItems_bound :
    ∀ ys y0, (∀ y ∈ y0 :: ys, WFj y → needJ y ≤ (serJson y).length) →
      WFj y0 → WFitems ys →
      needItems (y0 :: ys) ≤ (serJson y0 ++ serItems ys).length + 1 := by
  intro ys
  induction ys with
  | nil =>
    intro y0 hall hw _
    have h0 := hall y0 (List.mem_cons_self _ _) hw
    simp only [needItems, serItems, List.length_append, List.length_nil]
    omega
  | cons y1 ys' ih =>
    intro y0 hall hw hwi
    obtain ⟨hw1, hwi'⟩ := hwi
    have h0 := hall y0 (List.mem_cons_self _ _) hw
    have hrec := ih y1 (fun y hy => hall y (List.mem_cons_of_mem _ hy)) hw1 hwi'
    simp only [List.length_append] at hrec
    rw [needItems]
    simp only [serItems, List.length_append, List.length_cons]
    omega

theorem needMembers_bound :
    ∀ kvs kv0, (∀ kv ∈ kv0 :: kvs, WFj (kv : String × Json).2 →
        needJ kv.2 ≤ (serJson kv.2).length) →
      WFj kv0.2 → WFmembers kvs →
      needMembers (kv0 :: kvs) ≤ (serMember kv0 ++ serMembers kvs).length + 1 := by
  intro kvs
  induction kvs with
  | nil =>
    intro kv0 hall hw _
    have h0 := hall kv0 (List.mem_cons_self _ _) hw
    obtain ⟨k, v⟩ := kv0
    simp only [needMembers, serMembers, serMember, List.length_append, List.length_nil,
      List.length_cons] at *
    omega
  | cons kv1 kvs' ih =>
    intro kv0 hall hw hwm
    obtain ⟨hw1, hwm'⟩ := hwm
    have h0 := hall kv0 (List.mem_cons_self _ _) hw
    have hrec := ih kv1 (fun kv hkv => hall kv (List.mem_cons_of_mem _ hkv)) hw1 hwm'
    simp only [List.length_append] at hrec
    rw [needMembers]
    obtain ⟨k1, v1⟩ := kv1
    obtain ⟨k0, v0⟩ := kv0
    simp only [serMembers, serMember, List.length_append, List.length_cons] at *
    omega

theorem needJ_le_serLen : ∀ j, WFj j → needJ j ≤ (serJson j).length := by
  intro j
  induction j using jsonInduction with
  | hnull => intro _; simp [needJ, serJson]
  | hbool b => intro _; cases b <;> simp [needJ, serJson]
  | hnum raw =>
    intro hw
    obtain ⟨n, hn⟩ := hw
    obtain ⟨hne, -, -⟩ := natChars_spec n
    have : 0 < (natChars n).length := List.length_pos.2 hne
    simp only [needJ, serJson, hn]
    omega
  | hstr s => intro _; simp [needJ, serJson, serStr_shape]
  | harr xs ih =>
    intro hw
    cases xs with
    | nil => simp [needJ, needItems, serJson]
    | cons x xs' =>
      obtain ⟨hwx, hwi⟩ : WFj x ∧ WFitems xs' := hw
      have hb := needItems_bound xs' x ih hwx hwi
      simp only [needJ, serJson, List.length_cons, List.length_append] at *
      omega
  | hobj kvs ih =>
    intro hw
    cases kvs with
    | nil => simp [needJ, needMembers, serJson]
    | cons kv kvs' =>
      obtain ⟨hwv, hwm⟩ : WFj kv.2 ∧ WFmembers kvs' := hw
      have hb := needMembers_bound kvs' kv ih hwv hwm
      simp only [needJ, serJson, List.length_cons, List.length_append] at *
      omega

theorem serJson_head_facts (j : Json) (hw : WFj j) :
    ∃ c cs, serJson j = c :: cs ∧ isJsonWs c = false ∧ c ≠ ']' ∧ c ≠ Char.ofNat 125 ∧
      c ≠ ',' := by
  cases j with
  | null => refine ⟨'n', _, rfl, ?_, ?_, ?_, ?_⟩ <;> decide
  | bool b =>
    cases b
    · refine ⟨'f', _, rfl, ?_, ?_, ?_, ?_⟩ <;> decide
    · refine ⟨'t', _, rfl, ?_, ?_, ?_, ?_⟩ <;> decide
  | num raw =>
    obtain ⟨n, hn⟩ := hw
    obtain ⟨hne, hdig, -⟩ := natChars_spec n
    cases hA : natChars n with
    | nil => exact absurd hA hne
    | cons c cs =>
      have hc : isDigitChar c = true := hdig c (hA ▸ List.mem_cons_self _ _)
      refine ⟨c, cs, ?_, digit_not_jsonWs c hc, digit_ne c hc _ (by decide),
        digit_ne c hc _ (by decide), digit_ne c hc _ (by decide)⟩
      show raw.data = c :: cs
      rw [hn, hA]
  | str s => exact ⟨'"', _, serStr_shape s, by decide, by decide, by decide, by decide⟩
  | arr xs =>
    cases xs with
    | nil => exact ⟨'[', _, rfl, by decide, by decide, by decide, by decide⟩
    | cons x xs' => exact ⟨'[', _, rfl, by decide, by decide, by decide, by decide⟩
  | obj kvs =>
    cases kvs with
    | nil => exact ⟨Char.ofNat 123, _, rfl, by decide, by decide, by decide, by decide⟩
    | cons kv kvs' => exact ⟨Char.ofNat 123, _, rfl, by decide, by decide, by decide, by decide⟩

theorem serMember_head (k : String) (v : Json) (R : List Char) :
    serMember (k, v) ++ R =
      '"' :: ((escapeChars k.data ++ ['"']) ++ ((':' :: serJson v) ++ R)) := by
  rw [serMember, serStr_shape]
  simp [List.cons_append, List.append_assoc]

theorem parse_ser (fuel : Nat) :
    (∀ j rest, WFj j → needJ j ≤ fuel → headNumOk rest →
        parseValue fuel (serJson j ++ rest) = some (j, rest)) ∧
    (∀ x xs rest, WFj x → WFitems xs → needItems (x :: xs) ≤ fuel →
        parseItems fuel (serJson x ++ (serItems xs ++ (']' :: rest))) =
          some (x :: xs, rest)) ∧
    (∀ k v kvs rest, WFj v → WFmembers kvs → needMembers ((k, v) :: kvs) ≤ fuel →
        parseMembers fuel
            (serMember (k, v) ++ (serMembers kvs ++ (Char.ofNat 125 :: rest))) =
          some ((k, v) :: kvs, rest)) := by
  induction fuel with
  | zero =>
    refine ⟨?_, ?_, ?_⟩
    · intro j rest _ hneed _
      have h1 : 1 ≤ needJ j := by cases j <;> simp [needJ]
      omega
    · intro x xs rest _ _ hneed
      rw [needItems] at hneed
      omega
    · intro k v kvs rest _ _ hneed
      rw [needMembers] at hneed
      omega
  | succ fuel ih =>
    obtain ⟨ihV, ihI, ihM⟩ := ih
    refine ⟨?_, ?_, ?_⟩
    · intro j rest hw hneed hnum
      cases j with
      | null =>
        simp only [serJson, List.cons_append, List.nil_append]
        rw [parseValue, skipWs_not _ _ (by decide)]
        simp [startsWithL]
      | bool b =>
        cases b <;>
          · simp only [serJson, List.cons_append, List.nil_append]
            rw [parseValue, skipWs_not _ _ (by decide)]
            simp [startsWithL]
      | num raw =>
        obtain ⟨n, hn⟩ := hw
        obtain ⟨hne, hdig, -⟩ := natChars_spec n
        obtain ⟨c, cs, hA⟩ : ∃ c cs, natChars n = c :: cs := by
          cases hA : natChars n with
          | nil => exact absurd hA hne
          | cons c cs => exact ⟨c, cs, rfl⟩
        have hc : isDigitChar c = true := hdig c (hA ▸ List.mem_cons_self _ _)
        show parseValue (fuel + 1) (raw.data ++ rest) = some (.num raw, rest)
        rw [hn, hA, List.cons_append, parseValue_digit _ _ _ hc, ← List.cons_append,
          ← hA, parseNum_natChars n rest hnum, ← hn, string_mk_data]
      | str s =>
        simp only [serJson, serStr_shape, List.cons_append, List.append_assoc,
          List.singleton_append]
        rw [parseValue, skipWs_not _ _ (by decide)]
        simp [parseStrChars_escape, string_mk_data]
      | arr xs =>
        cases xs with
        | nil =>
          simp only [serJson, List.cons_append, List.nil_append]
          rw [parseValue, skipWs_not _ _ (by decide)]
          simp [skipWs_not _ _ (by decide : isJsonWs ']' = false), stripHead]
        | cons x xs' =>
          obtain ⟨hwx, hwi⟩ : WFj x ∧ WFitems xs' := hw
          have hneedI : needItems (x :: xs') ≤ fuel := by
            rw [needJ] at hneed
            omega
          obtain ⟨c, cs, hser, hcw, hcb, -, -⟩ := serJson_head_facts x hwx
          simp only [serJson, List.cons_append, List.append_assoc, List.singleton_append]
          rw [parseValue, skipWs_not _ _ (by decide)]
          have hskip : skipWs (serJson x ++ (serItems xs' ++ (']' :: rest))) =
              serJson x ++ (serItems xs' ++ (']' :: rest)) := by
            rw [hser, List.cons_append, skipWs_not _ _ hcw, ← List.cons_append, ← hser]
          have hstrip : stripHead ']' (serJson x ++ (serItems xs' ++ (']' :: rest))) =
              none := by
            rw [hser, List.cons_append, stripHead_ne _ _ _ hcb]
          simp [hskip, hstrip, ihI x xs' rest hwx hwi hneedI]
      | obj kvs =>
        cases kvs with
        | nil =>
          simp only [serJson, List.cons_append, List.nil_append]
          rw [parseValue, skipWs_not _ _ (by decide)]
          simp [skipWs_not _ _ (by decide : isJsonWs (Char.ofNat 125) = false), stripHead]
        | cons kv kvs' =>
          obtain ⟨k, v⟩ := kv
          obtain ⟨hwv, hwm⟩ : WFj (k, v).2 ∧ WFmembers kvs' := hw
          have hneedM : needMembers ((k, v) :: kvs') ≤ fuel := by
            rw [needJ] at hneed
            omega
          simp only [serJson, List.cons_append, List.append_assoc, List.singleton_append]
          rw [parseValue, skipWs_not _ _ (by decide)]
          have hskip : skipWs (serMember (k, v) ++ (serMembers kvs'
                ++ (Char.ofNat 125 :: rest))) =
              serMember (k, v) ++ (serMembers kvs' ++ (Char.ofNat 125 :: rest)) := by
            rw [serMember_head, skipWs_not _ _ (by decide), ← serMember_head]
          have hstrip : stripHead (Char.ofNat 125) (serMember (k, v)
                ++ (serMembers kvs' ++ (Char.ofNat 125 :: rest))) = none := by
            rw [serMember_head, stripHead_ne _ _ _ (by decide)]
          simp [hskip, hstrip, ihM k v kvs' rest hwv hwm hneedM]
    · intro x xs rest hwx hwi hneed
      have hV : parseValue fuel (serJson x ++ (serItems xs ++ (']' :: rest))) =
          some (x, serItems xs ++ (']' :: rest)) := by
        apply ihV x _ hwx
        · rw [needItems] at hneed
          omega
        · cases xs with
          | nil =>
            show headNumOk (serItems [] ++ (']' :: rest))
            simp only [serItems, List.nil_append]
            show isNumChar ']' = false
            decide
          | cons y ys =>
            show headNumOk (serItems (y :: ys) ++ (']' :: rest))
            simp only [serItems, List.cons_append]
            show isNumChar ',' = false
            decide
      rw [parseItems, hV]
      cases xs with
      | nil =>
        simp only [serItems, List.nil_append]
        simp [skipWs_not _ _ (by decide : isJsonWs ']' = false), stripHead]
      | cons y ys =>
        obtain ⟨hwy, hwys⟩ : WFj y ∧ WFitems ys := hwi
        have hneed2 : needItems (y :: ys) ≤ fuel := by
          rw [needItems] at hneed
          omega
        simp only [serItems, List.cons_append, List.append_assoc]
        simp [skipWs_not _ _ (by decide : isJsonWs ',' = false), stripHead,
          ihI y ys rest hwy hwys hneed2]
    · intro k v kvs rest hwv hwm hneed
      rw [parseMembers, serMember_head]
      have hre : (escapeChars k.data ++ ['"']) ++ ((':' :: serJson v)
            ++ (serMembers kvs ++ (Char.ofNat 125 :: rest))) =
          escapeChars k.data ++ ('"' :: (':' :: (serJson v
            ++ (serMembers kvs ++ (Char.ofNat 125 :: rest))))) := by
        simp
      have hV : parseValue fuel (serJson v ++ (serMembers kvs
            ++ (Char.ofNat 125 :: rest))) =
          some (v, serMembers kvs ++ (Char.ofNat 125 :: rest)) := by
        apply ihV v _ hwv
        · rw [needMembers] at hneed
          have hsnd : needJ (k, v).2 = needJ v := rfl
          rw [hsnd] at hneed
          omega
        · cases kvs with
          | nil =>
            show headNumOk (serMembers [] ++ (Char.ofNat 125 :: rest))
            simp only [serMembers, List.nil_append]
            show isNumChar (Char.ofNat 125) = false
            decide
          | cons kv2 kvs2 =>
            show headNumOk (serMembers (kv2 :: kvs2) ++ (Char.ofNat 125 :: rest))
            simp only [serMembers, List.cons_append]
            show isNumChar ',' = false
            decide
      simp only [skipWs_not _ _ (show isJsonWs '\"' = false by decide), stripHead_eq,
        hre, parseStrChars_escape,
        skipWs_not _ _ (show isJsonWs ':' = false by decide), hV]
      cases kvs with
      | nil =>
        simp only [serMembers, List.nil_append]
        simp [skipWs_not _ _ (by decide : isJsonWs (Char.ofNat 125) = false), stripHead,
          string_mk_data]
      | cons kv2 kvs2 =>
        obtain ⟨k2, v2⟩ := kv2
        obtain ⟨hwv2, hwm2⟩ : WFj (k2, v2).2 ∧ WFmembers kvs2 := hwm
        have hneed2 : needMembers ((k2, v2) :: kvs2) ≤ fuel := by
          rw [needMembers] at hneed
          omega
        simp only [serMembers, List.cons_append, List.append_assoc]
        simp [skipWs_not _ _ (by decide : isJsonWs ',' = false), stripHead,
          ihM k2 v2 kvs2 rest hwv2 hwm2 hneed2, string_mk_data]

theorem WFmembers_append (a b : List (String × Json)) (ha : WFmembers a)
    (hb : WFmembers b) : WFmembers (a ++ b) := by
  induction a with
  | nil => exact hb
  | cons kv t ih =>
    obtain ⟨h1, h2⟩ : WFj kv.2 ∧ WFmembers t := ha
    exact show WFj kv.2 ∧ WFmembers (t ++ b) from ⟨h1, ih h2⟩

theorem WFmembers_optSeg (key : String) (o : Option Json)
    (h : ∀ j, o = some j → WFj j) : WFmembers (optSeg key o) := by
  cases o with
  | none => exact trivial
  | some j => exact show WFj j ∧ True from ⟨h j rfl, trivial⟩

theorem WFmembers_attrsMembers (a : Attrs) : WFmembers (attrsMembers a) := by
  rw [attrsMembers]
  refine WFmembers_append _ _ ?_ (WFmembers_append _ _ ?_ (WFmembers_append _ _ ?_
    (WFmembers_append _ _ ?_ (WFmembers_append _ _ ?_ ?_))))
  · refine WFmembers_optSeg _ _ fun j hj => ?_
    obtain ⟨l, -, rfl⟩ := Option.map_eq_some'.mp hj
    exact ⟨l, rfl⟩
  · refine WFmembers_optSeg _ _ fun j hj => ?_
    obtain ⟨s, -, rfl⟩ := Option.map_eq_some'.mp hj
    exact trivial
  · refine WFmembers_optSeg _ _ fun j hj => ?_
    obtain ⟨b, -, rfl⟩ := Option.map_eq_some'.mp hj
    exact trivial
  · refine WFmembers_optSeg _ _ fun j hj => ?_
    obtain ⟨s, -, rfl⟩ := Option.map_eq_some'.mp hj
    exact trivial
  · refine WFmembers_optSeg _ _ fun j hj => ?_
    obtain ⟨s, -, rfl⟩ := Option.map_eq_some'.mp hj
    exact trivial
  · refine WFmembers_optSeg _ _ fun j hj => ?_
    obtain ⟨b, -, rfl⟩ := Option.map_eq_some'.mp hj
    exact trivial

theorem WFitems_map_markToJson (ms : List String) : WFitems (ms.map markToJson) := by
  induction ms with
  | nil => exact trivial
  | cons m t ih =>
    exact show WFj (markToJson m) ∧ WFitems (t.map markToJson) from
      ⟨show WFj (.str m) ∧ True from ⟨trivial, trivial⟩, ih⟩

theorem WFj_nodeToJson : ∀ t, WFj (nodeToJson t) := by
  intro t
  induction t using tnodeInduction with
  | h ty tx ms a c ih =>
    have hlist : ∀ ns, (∀ n ∈ ns, WFj (nodeToJson n)) → WFitems (nodesToJson ns) := by
      intro ns
      induction ns with
      | nil => intro _; exact trivial
      | cons n t2 ih2 =>
        intro hall
        exact show WFj (nodeToJson n) ∧ WFitems (nodesToJson t2) from
          ⟨hall n (List.mem_cons_self _ _),
            ih2 fun m hm => hall m (List.mem_cons_of_mem _ hm)⟩
    refine show WFj (Json.str ty) ∧ WFmembers _ from ⟨trivial, ?_⟩
    refine WFmembers_append _ _ ?_ (WFmembers_append _ _ ?_ (WFmembers_append _ _ ?_ ?_))
    · refine WFmembers_optSeg _ _ fun j hj => ?_
      obtain ⟨s, -, rfl⟩ := Option.map_eq_some'.mp hj
      exact trivial
    · refine WFmembers_optSeg _ _ fun j hj => ?_
      by_cases hms : ms.isEmpty
      · rw [if_pos hms] at hj
        exact absurd hj (by simp)
      · rw [if_neg hms] at hj
        obtain rfl := Option.some.inj hj
        exact WFitems_map_markToJson ms
    · refine WFmembers_optSeg _ _ fun j hj => ?_
      by_cases hat : (attrsMembers a).isEmpty
      · rw [if_pos hat] at hj
        exact absurd hj (by simp)
      · rw [if_neg hat] at hj
        obtain rfl := Option.some.inj hj
        exact WFmembers_attrsMembers a
    · refine WFmembers_optSeg _ _ fun j hj => ?_
      by_cases hc : c.isEmpty
      · rw [if_pos hc] at hj
        exact absurd hj (by simp)
      · rw [if_neg hc] at hj
        obtain rfl := Option.some.inj hj
        exact hlist c ih

theorem jsonParse_serJson (j : Json) (hw : WFj j) : jsonParse (serJson j) = some j := by
  obtain ⟨hV, -, -⟩ := parse_ser ((serJson j).length + 1)
  have h := hV j [] hw (by have := needJ_le_serLen j hw; omega) trivial
  rw [List.append_nil] at h
  rw [jsonParse, h]
  simp [skipWs]

/-- C7: save/load round trip — encoding a content tree with `JSON.stringify` as in
`updatePage` and decoding it with `JSON.parse` as in `getPage` recovers the same
tree, for every tree. -/
theorem encode_decode_roundtrip (t : TNode) :
    decodePageContent (encodePageContent t) = some t := by
  have hp : jsonParse (serJson (nodeToJson t)) = some (nodeToJson t) :=
    jsonParse_serJson _ (WFj_nodeToJson t)
  simp only [decodePageContent, encodePageContent]
  rw [hp]
  simp [jsonToTNode_nodeToJson]
